import Mathlib

/-!
Verification development for the chempict coordinate-generation core.

This file gives a shallow embedding, in Lean, of the parts of the repository
that the verified properties talk about:

* `src/ring/path_edge.js` (path-edge splicing used by SSSR ring detection),
* `src/model/bond.js` (the `otherAtom` lookup),
* `src/layout/coordinate_generator.js` (the coordinate generator and the
  ring placer that lives in the same file).

JavaScript objects are modelled as Lean structures, atoms are identified by
natural-number ids (object reference equality becomes equality of ids),
JavaScript numbers are modelled as real numbers, exceptions as `Except`
results, and the in-place mutation of atom coordinates and flags as explicit
state passing.  Definitions that embed functions whose source file is absent
from the repository snapshot (math/vector2d.js, layout/atom_placer.js,
utils/array.js, layout/config.js) are modelled from the specification and say
so in their doc comment.
-/

namespace Chempict

/-! ## Two-dimensional vectors (math/coordinate.js, math/vector2d.js) -/

/-- Two-dimensional point or vector with real coordinates. -/
abbrev Vec2 := ℝ × ℝ

/-- Componentwise sum of two vectors. -/
def addV (a b : Vec2) : Vec2 := (a.1 + b.1, a.2 + b.2)

/-- Componentwise difference of two vectors. -/
def subV (a b : Vec2) : Vec2 := (a.1 - b.1, a.2 - b.2)

/-- Scaling of a vector by a real number. -/
def scaleV (s : ℝ) (v : Vec2) : Vec2 := (s * v.1, s * v.2)

/-- Dot product of two vectors. -/
def dotV (a b : Vec2) : ℝ := a.1 * b.1 + a.2 * b.2

/-- Planar cross product (z-component of the 3-d cross product); its sign
tells on which side of the line spanned by the first vector the second one
lies. -/
def crossV (a b : Vec2) : ℝ := a.1 * b.2 - a.2 * b.1

/-- Squared Euclidean norm. -/
def normSqV (v : Vec2) : ℝ := v.1 ^ 2 + v.2 ^ 2

/-- Euclidean norm. -/
noncomputable def lenV (v : Vec2) : ℝ := Real.sqrt (normSqV v)

/-- Modelled from the spec: math/vector2d.js is not part of the source
snapshot.  Vector2D.prototype.normalize divides a vector by its Euclidean
norm in place; here it returns the normalized vector. -/
noncomputable def normalizeV (v : Vec2) : Vec2 := (v.1 / lenV v, v.2 / lenV v)

/-- Modelled from the spec: layout/atom_placer.js is not part of the source
snapshot.  Spec section 4.3 defines `getAngle(dx, dy)` as the standard
2-argument arctangent in radians, i.e. atan2(dy, dx), modelled as the
argument of the complex number dx + dy·i. -/
noncomputable def getAngle (x y : ℝ) : ℝ := Complex.arg ⟨x, y⟩

/-- Modelled from the spec: math/vector2d.js is not part of the source
snapshot.  Vector2D.prototype.angle(other) returns the unsigned angle
between two vectors, in the interval [0, π]. -/
noncomputable def vecAngleBetween (u v : Vec2) : ℝ :=
  Real.arccos (dotV u v / (lenV u * lenV v))

/-- Midpoint of two points: the shared-atoms center that callers of
placeFusedRing compute as the mean of the two shared atoms' coordinates
(coordinate_generator.js lines 302 to 307). -/
noncomputable def midV (a b : Vec2) : Vec2 := ((a.1 + b.1)/2, (a.2 + b.2)/2)

/-! ## Path edges (src/ring/path_edge.js)

A path edge is its ordered list of atoms; atoms are identified by ids, and
the JavaScript strict equality `===` between atom objects (or `undefined`,
which out-of-range index accesses produce) is equality of `Option Nat`
values. -/

/-- RingPathEdge.prototype.isCycle (path_edge.js lines 31 to 34): a path is a
cycle when it is longer than 2 and its first atom is its last atom. -/
def isCycle (atoms : List Nat) : Bool :=
  decide (2 < atoms.length) && (atoms.head? == atoms.getLast?)

/-- RingPathEdge.prototype.isRealPath (path_edge.js lines 76 to 88): scans all
pairs of distinct interior positions (indices 1 to length−2) and reports
false when two of them hold the same atom. -/
def isRealPath (atoms : List Nat) : Bool :=
  (List.range' 1 (atoms.length - 1 - 1)).all fun i =>
    (List.range' 1 (atoms.length - 1 - 1)).all fun j =>
      decide (i = j) || !(atoms.get? i == atoms.get? j)

/-- RingPathEdge.prototype.getIntersection (path_edge.js lines 94 to 104):
returns the endpoint of `self` that is also an endpoint of `others`,
preferring the last atom of `self`, and throws when there is none.  The
JavaScript function returns an atom object (or `undefined` when both lists
are empty, since indexing an empty array yields `undefined`), hence the
`Option Nat` payload. -/
def getIntersection (self others : List Nat) : Except String (Option Nat) :=
  if self.getLast? == others.head? || self.getLast? == others.getLast? then
    Except.ok self.getLast?
  else if self.head? == others.head? || self.head? == others.getLast? then
    Except.ok self.head?
  else
    Except.error ("Couldnt splice - no intersection")

/-- Construction of the merged atom sequence in RingPathEdge.prototype.splice
(path_edge.js lines 44 to 63): copy this edge's atoms, reverse them when the
intersection is at the front, then append the other edge's atoms with the
intersection occurrence dropped (forward when the intersection is the other
edge's first atom, otherwise backwards from its second-to-last atom). -/
def mergedAtomsWith (inter : Option Nat) (self others : List Nat) : List Nat :=
  let newAtoms := if self.head? == inter then self.reverse else self
  if others.head? == inter then newAtoms ++ others.drop 1
  else newAtoms ++ others.dropLast.reverse

/-- RingPathEdge.prototype.splice (path_edge.js lines 40 to 70): merge two
path edges at their shared endpoint; the result is `none` (JavaScript `null`)
when the merged sequence is not a real path, and the merge throws when the
edges have no shared endpoint. -/
def splice (self others : List Nat) : Except String (Option (List Nat)) :=
  match getIntersection self others with
  | Except.error e => Except.error e
  | Except.ok inter =>
    let newAtoms := mergedAtomsWith inter self others
    if isRealPath newAtoms then Except.ok (some newAtoms) else Except.ok none

/-- An atom id is an endpoint of a path when it is its first or last atom. -/
def isEndpointOf (l : List Nat) (a : Nat) : Prop :=
  l.head? = some a ∨ l.getLast? = some a

instance (l : List Nat) (a : Nat) : Decidable (isEndpointOf l a) := by
  unfold isEndpointOf; infer_instance

/-- Interior atoms of a path: every atom except the ones at the first and
last positions. -/
def interiorAtoms (atoms : List Nat) : List Nat := (atoms.drop 1).dropLast

/-! ## Bonds and rings (src/model/bond.js and the ring structure) -/

/-- A bond between two atoms, given by the ids of its source and target
atoms (model/bond.js); order, stereo and aromaticity play no role in the
verified properties. -/
structure Bond where
  source : Nat
  target : Nat
deriving DecidableEq, Repr, Inhabited

/-- ModelBond.prototype.otherAtom (bond.js lines 69 to 77): the endpoint of
the bond other than `a`, or `none` (JavaScript `null`) when `a` is not an
endpoint. -/
def Bond.otherAtom (b : Bond) (a : Nat) : Option Nat :=
  if b.source = a then some b.target
  else if b.target = a then some b.source
  else none

/-- A ring: its ordered cycle of atom ids, the corresponding bonds, and its
ISPLACED flag (the ring structure appended to coordinate_generator.js in the
snapshot). -/
structure Ring where
  atoms : List Nat := []
  bonds : List Bond := []
  isPlacedFlag : Bool := false
deriving DecidableEq, Repr, Inhabited

/-- JavaScript numeric index access `ring[j]` on a Ring object: Ring objects
carry only the properties atoms, bonds and flags, so a numeric index access
evaluates to `undefined`, modelled as `none`.  This is how
layoutCoordinateGenerator.getMostComplexRing (coordinate_generator.js lines
257 and 262) actually reads `ring1[j]` and `ring2[l]` — the loop bounds use
`ring.atoms.length` but the accesses are on the ring object itself, not on
its atoms array. -/
def ringJsIndex (_r : Ring) (_j : Nat) : Option Nat := none

/-- Inner atom-comparison loop of getMostComplexRing (coordinate_generator.js
lines 261 to 267): scans positions `l` of `ring2` and reports whether some
comparison `ring1[j] === ring2[l]` succeeds (the loop breaks at the first
success, so only success matters for the neighbor counts). -/
def mcrInnerMatch (r1 : Ring) (j : Nat) (r2 : Ring) : Bool :=
  (List.range r2.atoms.length).any fun l => ringJsIndex r1 j == ringJsIndex r2 l

/-- Increment the entry at position `i` of a list of counters. -/
def bumpAt : List Nat → Nat → List Nat
  | [], _ => []
  | x :: xs, 0 => (x + 1) :: xs
  | x :: xs, i + 1 => x :: bumpAt xs i

/-- Neighbor-count computation of getMostComplexRing (coordinate_generator.js
lines 248 to 272): the triple loop over ring positions `i`, atom positions
`j` of `ring1`, and later ring positions `k`, incrementing `neighbors[i]` and
`neighbors[k]` whenever the inner comparison loop finds a match.  The
JavaScript reference inequality `ring1 !== ring2` is modelled as structural
inequality of the ring values. -/
def mcrNeighbors (ringSet : List Ring) : List Nat :=
  (List.range ringSet.length).foldl
    (fun acc i =>
      let ring1 := ringSet.getD i default
      (List.range ring1.atoms.length).foldl
        (fun acc2 j =>
          (List.range' (i + 1) (ringSet.length - (i + 1))).foldl
            (fun acc3 k =>
              let ring2 := ringSet.getD k default
              if ring1 ≠ ring2 ∧ mcrInnerMatch ring1 j ring2 then
                bumpAt (bumpAt acc3 i) k
              else acc3)
            acc2)
        acc)
    (List.replicate ringSet.length 0)

/-- Final scan of getMostComplexRing (coordinate_generator.js lines 273 to
278): the position of the first strict maximum of the neighbor counts,
starting from the initial candidate value 0 at position 0. -/
def mcrScan (neighbors : List Nat) : Nat :=
  ((List.range neighbors.length).foldl
    (fun (st : Nat × Nat) i =>
      if neighbors.getD i 0 > st.1 then (neighbors.getD i 0, i) else st)
    (0, 0)).2

/-- layoutCoordinateGenerator.getMostComplexRing (coordinate_generator.js
lines 247 to 280); returns `none` (JavaScript `undefined`) on an empty ring
set. -/
def getMostComplexRing (ringSet : List Ring) : Option Ring :=
  ringSet.get? (mcrScan (mcrNeighbors ringSet))

/-- Number of other rings of a ring set that share at least one atom with
`r`; this is the quantity the specification says seed-ring selection
maximises. -/
def sharesCount (r : Ring) (ringSet : List Ring) : Nat :=
  (ringSet.filter fun r2 => decide (r2 ≠ r) && r2.atoms.any (· ∈ r.atoms)).length

/-! ## Molecules and the generate prefix (coordinate_generator.js) -/

/-- An atom of the molecule model.  The coordinate field `coord` is the one
read and written by the whole layout code and by bond.js; the extra field
`coords` models the distinct JavaScript property of that name created by the
assignment `molecule.getAtom(0).coords = new MathCoordinate(0, 0)` on line 57
of coordinate_generator.js (property accesses on a JavaScript object silently
create new properties, they do not alias `coord`). -/
structure LAtom where
  coord : Option Vec2 := none
  coords : Option Vec2 := none
  isplaced : Bool := false
  visited : Bool := false
  isinring : Bool := false
  isaliphatic : Bool := false

/-- A molecule: its atom list, its bonds as pairs of atom indices, and its
number of connected components.  model/molecule.js is not part of the source
snapshot; per spec section 3 the fragment count is a derived property of the
bond graph, modelled here as a stored field. -/
structure Molecule where
  atoms : List LAtom
  bonds : List (Nat × Nat) := []
  fragmentCount : Nat := 1

/-- Flag-reset prologue of layoutCoordinateGenerator.generate
(coordinate_generator.js lines 43 to 50): every atom's ISPLACED, VISITED,
ISINRING and ISALIPHATIC flags are set to false; coordinates are untouched. -/
def resetAtomFlags (m : Molecule) : Molecule :=
  { m with
    atoms := m.atoms.map fun a =>
      { a with isplaced := false, visited := false, isinring := false,
               isaliphatic := false } }

/-- Single-atom special case of generate (coordinate_generator.js line 57):
the assignment writes the property named `coords` of atom 0 — not the
`coord` field used by the rest of the code. -/
def setFirstAtomCoords (m : Molecule) (c : Vec2) : Molecule :=
  { m with atoms := m.atoms.modify (fun a => { a with coords := some c }) 0 }

/-- Entry of layoutCoordinateGenerator.generate (coordinate_generator.js
lines 39 to 63): reset all atom flags, return at once for a single-atom
molecule after line 57's coordinate write, throw "Molecule not connected."
when the fragment count exceeds 1, and otherwise continue with the rest of
the algorithm (ring seeding, chain placement and the alternation loop, lines
67 to 140), abstracted here as the function `rest`.  The result pairs the
molecule state visible to the caller with the error message of the thrown
exception, if any. -/
def generateRun (rest : Molecule → Molecule) (m : Molecule) :
    Molecule × Option String :=
  let m1 := resetAtomFlags m
  if m1.atoms.length = 1 then (setFirstAtomCoords m1 ((0 : ℝ), (0 : ℝ)), none)
  else if 1 < m1.fragmentCount then (m1, some ("Molecule not connected."))
  else (rest m1, none)

/-- Modelled from the spec: layout/atom_placer.js is not part of the source
snapshot.  layoutAtomPlacer.allPlaced(molecule, atCount) reports whether the
first atCount atoms of the molecule all carry the ISPLACED flag ("until all
atoms are placed", spec section 4.6). -/
def allPlacedAtoms (m : Molecule) (atCount : Nat) : Bool :=
  (m.atoms.take atCount).all (·.isplaced)

/-- One round of the aliphatic/ring alternation loop of generate
(coordinate_generator.js lines 108 to 126), with the loop body — the calls to
handleAliphatics and layoutNextRingSystem, which depend on the absent
atom-placer module — abstracted as `body`.  The do-while loop increments a
safety counter at the top of each iteration and re-enters only while not all
atoms are placed and the counter is at most the molecule's current atom
count; `fuel` bounds the recursion and equals the largest number of
iterations the safety counter admits when the body preserves the atom count
(counter values 1 to countAtoms + 1). -/
def altLoopGo (body : Molecule → Molecule) (atCount : Nat) :
    Nat → Nat → Molecule → Molecule
  | 0, _, m => m
  | fuel + 1, counter, m =>
    let m2 := body m
    if ¬ allPlacedAtoms m2 atCount ∧ counter + 1 ≤ m2.atoms.length then
      altLoopGo body atCount fuel (counter + 1) m2
    else m2

/-- The aliphatic/ring alternation loop of generate (coordinate_generator.js
lines 107 to 126) started with safety counter 0. -/
def altLoop (body : Molecule → Molecule) (m : Molecule) : Molecule :=
  altLoopGo body m.atoms.length (m.atoms.length + 1) 0 m

/-- Ring-atom flagging step of generate (coordinate_generator.js lines 76 to
79).  The statement `ring.atoms.forEach, function(atom) { ... };` inside the
outer forEach is a JavaScript comma expression: it evaluates the function
reference `ring.atoms.forEach` without calling it, then evaluates the
function literal without calling it.  No atom flag is modified, so the step
leaves the molecule unchanged. -/
def flagRingAtomsStep (_sssr : List Ring) (m : Molecule) : Molecule := m

/-- Modelled from the spec: what lines 76 to 79 of coordinate_generator.js
are documented to do ("flag all atoms in sssr as ISINRING", and spec section
4.6: "flag all ring atoms IN_RING") — set the ISINRING flag of every atom,
identified by its index, that belongs to some ring of the SSSR. -/
def specFlagRingAtoms (sssr : List Ring) (m : Molecule) : Molecule :=
  { m with
    atoms := (List.range m.atoms.length).zipWith
      (fun i a => if sssr.any fun ring => i ∈ ring.atoms
                  then { a with isinring := true } else a)
      m.atoms }

/-- Ring-set selection of generate (coordinate_generator.js lines 81 to 82):
sort the partitioned ring sets by size and take the last one.  Modelled from
the spec for the absent utils/array.js: defaultCompare is the usual ascending
three-way comparison and Array.prototype.sort is stable, modelled as a stable
merge sort by ring-set size. -/
def largestRingset (ringsets : List (List Ring)) : Option (List Ring) :=
  (ringsets.mergeSort fun a b => decide (a.length ≤ b.length)).getLast?

/-! ## Geometric placement state (atom coordinates and ISPLACED flags)

During ring placement the only atom state the code reads and writes are the
coordinate and the ISPLACED flag; the state is modelled as total functions
from atom id. -/

/-- Coordinates and placement flags of the atoms during ring placement. -/
structure GState where
  coord : Nat → Vec2
  placed : Nat → Bool

/-- Write an atom's coordinate and set its ISPLACED flag. -/
def setAtomCoordPlaced (s : GState) (i : Nat) (c : Vec2) : GState :=
  { coord := Function.update s.coord i c,
    placed := Function.update s.placed i true }

/-- layoutCoordinateGenerator.placeFirstBond (coordinate_generator.js lines
153 to 161): normalize the vector and scale it to the configured bond length
(the JavaScript mutates the caller's vector in place, so the scaled vector is
also returned, as ringSet later passes the mutated vector on), put the bond's
source atom at the origin and its target atom at the scaled vector, flagging
both placed.  The bond length `bl` models the layoutConfig.bondLength module
constant (layout/config.js is not part of the source snapshot). -/
noncomputable def placeFirstBond (bond : Bond) (v : Vec2) (bl : ℝ) (s : GState) :
    GState × Vec2 :=
  let v2 := scaleV bl (normalizeV v)
  let s1 := setAtomCoordPlaced s bond.source ((0 : ℝ), (0 : ℝ))
  let s2 := setAtomCoordPlaced s1 bond.target v2
  (s2, v2)

/-- layoutRingPlacer.getNativeRingRadius (coordinate_generator.js lines 684
to 686): circumradius of a regular polygon with `size` corners and the given
side length. -/
noncomputable def getNativeRingRadius (size : Nat) (bl : ℝ) : ℝ :=
  bl / (2 * Real.sin (Real.pi / (size : ℝ)))

/-- layoutRingPlacer.getRingCenterOfFirstRing (coordinate_generator.js lines
341 to 351): the vector from the first bond's midpoint to the ring center,
perpendicular to the bond vector, with length sqrt(radius² − (bl/2)²). -/
noncomputable def getRingCenterOfFirstRing (ring : Ring) (bondVector : Vec2)
    (bl : ℝ) : Vec2 :=
  let size := ring.atoms.length
  let radius := bl / (2 * Real.sin (Real.pi / (size : ℝ)))
  let newRingPerpendicular := Real.sqrt (radius ^ 2 - (bl / 2) ^ 2)
  let rotangle := getAngle bondVector.1 bondVector.2 + Real.pi / 2
  (Real.cos rotangle * newRingPerpendicular,
   Real.sin rotangle * newRingPerpendicular)

/-- Modelled from the spec: layout/atom_placer.js is not part of the source
snapshot.  layoutAtomPlacer.populatePolygonCorners places each listed atom at
center + radius·(cos θ, sin θ) with θ advanced by the angle increment before
each placement (the start angle itself is occupied by the already placed
start atom, which is why every ring-placement strategy passes the start
atom's own angle), and flags each placed. -/
noncomputable def populatePolygonCorners :
    List Nat → Vec2 → ℝ → ℝ → ℝ → GState → GState
  | [], _, _, _, _, s => s
  | a :: rest, center, angle, addAngle, radius, s =>
    let angle2 := angle + addAngle
    let s2 := setAtomCoordPlaced s a
      (center.1 + radius * Real.cos angle2, center.2 + radius * Real.sin angle2)
    populatePolygonCorners rest center angle2 addAngle radius s2

/-- layoutRingPlacer.getNextBond (coordinate_generator.js lines 628 to 636):
the first bond of the ring that is not the given bond and has the given atom
as an endpoint. -/
def getNextBond (ring : Ring) (bond : Bond) (atom : Nat) : Option Bond :=
  ring.bonds.find? fun b => !(b == bond) && (b.source == atom || b.target == atom)

/-- Atom-collection loop of placeFusedRing (coordinate_generator.js lines 618
to 623): starting from the shared bond and the chosen start atom, walk
`ringSize − 2` steps around the ring collecting the atoms to draw.  The
`none` fallbacks model the JavaScript crash that a missing next bond would
cause; they are never hit on well-formed rings. -/
def fusedDrawLoop (ring : Ring) : Nat → Bond → Nat → List Nat
  | 0, _, _ => []
  | k + 1, bond, atom =>
    match getNextBond ring bond atom with
    | none => []
    | some nb =>
      match nb.otherAtom atom with
      | none => []
      | some na => na :: fusedDrawLoop ring k nb na

/-- The shared fragment of two rings: the atoms and bonds they have in
common (the object literal built in ringSet and placeConnectedRings). -/
structure SharedFrag where
  atoms : List Nat
  bonds : List Bond

/-- Ring-center computation of placeFusedRing (coordinate_generator.js lines
553 to 559): the shared-atom center offset along the normalized ring-center
vector scaled to sqrt(radius² − (bl/2)²). -/
noncomputable def fusedRingCenter (sharedAtomsCenter rcv : Vec2)
    (radius bl : ℝ) : Vec2 :=
  let newRingPerpendicular := Real.sqrt (radius ^ 2 - (bl / 2) ^ 2)
  addV sharedAtomsCenter (scaleV newRingPerpendicular (normalizeV rcv))

/-- layoutRingPlacer.placeFusedRing (coordinate_generator.js lines 551 to
626): place a ring sharing exactly one bond (two atoms) with already placed
geometry.  The branch on a vertical shared bond (xDiff = 0) picks the upper
shared atom and compares the center's x-coordinate with the bond; the other
branch picks the shared atom with the larger x and compares the center
against the bond's line equation.  The fallback arms model the JavaScript
crashes on malformed shared fragments and are never hit by the claims. -/
noncomputable def placeFusedRing (ring : Ring) (sharedAtoms : SharedFrag)
    (sharedAtomsCenter : Vec2) (ringCenterVector : Vec2) (bl : ℝ)
    (s : GState) : GState :=
  let radius := getNativeRingRadius ring.atoms.length bl
  let ringCenter := fusedRingCenter sharedAtomsCenter ringCenterVector radius bl
  match sharedAtoms.atoms, sharedAtoms.bonds with
  | a1 :: a2 :: _, sb :: _ =>
    let p1 := s.coord a1
    let p2 := s.coord a2
    let u1 := subV p1 ringCenter
    let u2 := subV p2 ringCenter
    let occupiedAngle := vecAngleBetween u1 u2
    let remainingAngle := 2 * Real.pi - occupiedAngle
    let addAngle := remainingAngle / ((ring.atoms.length : ℝ) - 1)
    let xDiff := p1.1 - p2.1
    let yDiff := p1.2 - p2.2
    let sd : Nat × ℝ :=
      if xDiff = 0 then
        (if p1.2 > p2.2 then a1 else a2,
         if ringCenter.1 < p1.1 then 1 else -1)
      else
        (if p1.1 > p2.1 then a1 else a2,
         if ringCenter.2 - p1.2 > (ringCenter.1 - p1.1) * yDiff / xDiff then 1
          else -1)
    let startAtom := sd.1
    let direction := sd.2
    let startAngle := getAngle ((s.coord startAtom).1 - ringCenter.1)
      ((s.coord startAtom).2 - ringCenter.2)
    let atomsToDraw := fusedDrawLoop ring (ring.bonds.length - 2) sb startAtom
    populatePolygonCorners atomsToDraw ringCenter startAngle
      (addAngle * direction) radius s
  | _, _ => s

/-- layoutRingPlacer.placeRing (coordinate_generator.js lines 369 to 382):
dispatch on the shared-fragment size.  Only the fused branch (exactly two
shared atoms) is embedded; the spiro and bridged branches are left as the
identity since no verified claim exercises them. -/
noncomputable def placeRing (ring : Ring) (sharedFrag : SharedFrag)
    (sharedFragCenter : Vec2) (ringCenterVector : Vec2) (bl : ℝ)
    (s : GState) : GState :=
  if sharedFrag.atoms.length = 2 then
    placeFusedRing ring sharedFrag sharedFragCenter ringCenterVector bl s
  else s

/-- Initial-placement part of layoutCoordinateGenerator.ringSet
(coordinate_generator.js lines 290 to 313): pick the most complex ring of the
set, place its first bond from the given bond vector, build the shared
fragment from the two placed atoms with their mean as its center, compute the
first-ring center vector (from the scaled bond vector, which the JavaScript
mutated in place) and place the ring.  The subsequent do-while over
placeConnectedRings (lines 315 to 325) does nothing for a ring set with a
single ring, which is the only case a claim exercises, and is not modelled;
the `none` and empty-bond arms model JavaScript crashes on malformed input. -/
noncomputable def seedFirstRingSet (bondVector : Vec2) (ringset : List Ring)
    (bl : ℝ) (s : GState) : GState :=
  match getMostComplexRing ringset with
  | none => s
  | some mcr =>
    if mcr.isPlacedFlag then s
    else
      match mcr.bonds with
      | [] => s
      | b0 :: _ =>
        let pr := placeFirstBond b0 bondVector bl s
        let s1 := pr.1
        let v2 := pr.2
        let cx := ((s1.coord b0.source).1 + (s1.coord b0.target).1) / 2
        let cy := ((s1.coord b0.source).2 + (s1.coord b0.target).2) / 2
        let rcv := getRingCenterOfFirstRing mcr v2 bl
        placeRing mcr { atoms := [b0.source, b0.target], bonds := [b0] }
          (cx, cy) rcv bl s1

/-- A canonical ring with `n` atoms labelled 0 to n−1 and bonds joining
consecutive labels cyclically; every concrete ring is of this shape up to
relabelling of its atoms. -/
def canonRing (n : Nat) : Ring :=
  { atoms := List.range n,
    bonds := (List.range n).map fun i => { source := i, target := (i + 1) % n } }

/-- The all-origin, nothing-placed initial geometric state. -/
def initGState : GState :=
  { coord := fun _ => ((0 : ℝ), (0 : ℝ)), placed := fun _ => false }

/-- State reached after placing the first bond of the benzene seed ring:
atom 0 at the origin and atom 1 at (0, bl), both flagged placed. -/
noncomputable def benzSeedState (bl : ℝ) : GState :=
  setAtomCoordPlaced (setAtomCoordPlaced initGState 0 ((0:ℝ), (0:ℝ))) 1 ((0:ℝ), bl)

/-! ## Concrete example data used by counterexamples and witnesses -/

/-- Three-membered ring on atoms 1, 2, 3. -/
def exRingA : Ring := { atoms := [1, 2, 3] }

/-- Three-membered ring on atoms 4, 5, 6. -/
def exRingB : Ring := { atoms := [4, 5, 6] }

/-- Three-membered ring on atoms 6, 7, 8; it shares atom 6 with `exRingB`
and no atom with `exRingA`. -/
def exRingC : Ring := { atoms := [6, 7, 8] }

/-- Ring set in which `exRingA` shares atoms with no other ring while
`exRingB` and `exRingC` share an atom. -/
def exRingSet : List Ring := [exRingA, exRingB, exRingC]

/-- A single-atom molecule with no coordinate assigned yet. -/
def exSingleAtomMol : Molecule := { atoms := [{ coord := none }] }

/-- A two-atom molecule with two fragments (no bond between the atoms); its
atoms carry stale coordinates and set flags on entry. -/
def exDisconnectedMol : Molecule :=
  { atoms := [{ coord := some ((1 : ℝ), (2 : ℝ)), isplaced := true, visited := true },
              { coord := none, isinring := true }],
    bonds := [],
    fragmentCount := 2 }

/-- Cyclopropane-like molecule: three atoms in one three-membered ring. -/
def exCyclopropane : Molecule :=
  { atoms := [{ coord := none }, { coord := none }, { coord := none }],
    bonds := [(0, 1), (1, 2), (2, 0)],
    fragmentCount := 1 }

/-- The SSSR of the cyclopropane example: one ring over atoms 0, 1, 2. -/
def exCyclopropaneSssr : List Ring := [canonRing 3]

/-! ## Helper lemmas -/

/-- Length of the interior of a path. -/
theorem interiorAtoms_length (atoms : List Nat) :
    (interiorAtoms atoms).length = atoms.length - 2 := by
  simp only [interiorAtoms, List.length_dropLast, List.length_drop]
  omega

/-- The k-th interior atom is the (k+1)-st atom of the path. -/
theorem interiorAtoms_get? (atoms : List Nat) (k : Nat)
    (hk : k < (interiorAtoms atoms).length) :
    (interiorAtoms atoms).get? k = atoms.get? (k + 1) := by
  have hlen := interiorAtoms_length atoms
  have hk1 : k + 1 < atoms.length := by omega
  have hkd : k < (atoms.drop 1).length := by
    simp only [List.length_drop]; omega
  rw [List.get?_eq_getElem?, List.get?_eq_getElem?,
      List.getElem?_eq_getElem hk, List.getElem?_eq_getElem hk1]
  have h1 : (interiorAtoms atoms)[k] = (atoms.drop 1)[k] :=
    List.getElem_dropLast _ _ _
  rw [h1, ← List.getElem?_eq_getElem hkd, List.getElem?_drop,
      ← List.getElem?_eq_getElem hk1]
  congr 1
  omega

/-- The double index loop of isRealPath decides exactly freedom from
duplicates among the interior atoms. -/
theorem isRealPath_iff_nodup (atoms : List Nat) :
    isRealPath atoms = true ↔ (interiorAtoms atoms).Nodup := by
  have hlen := interiorAtoms_length atoms
  constructor
  · intro h
    rw [List.nodup_iff_injective_get]
    rintro ⟨k, hk⟩ ⟨l, hl⟩ heq
    by_contra hne
    have hkl : k ≠ l := by
      intro he; exact hne (by simpa using he)
    rw [isRealPath, List.all_eq_true] at h
    have hk' : k + 1 ∈ List.range' 1 (atoms.length - 1 - 1) := by
      rw [List.mem_range'_1]; omega
    have hl' : l + 1 ∈ List.range' 1 (atoms.length - 1 - 1) := by
      rw [List.mem_range'_1]; omega
    have h2 := h _ hk'
    rw [List.all_eq_true] at h2
    have h3 := h2 _ hl'
    rw [Bool.or_eq_true, decide_eq_true_iff, Bool.not_eq_true'] at h3
    rcases h3 with h3 | h3
    · omega
    · rw [beq_eq_false_iff_ne] at h3
      apply h3
      rw [← interiorAtoms_get? atoms k hk, ← interiorAtoms_get? atoms l hl]
      rw [List.get?_eq_getElem?, List.get?_eq_getElem?,
          List.getElem?_eq_getElem hk, List.getElem?_eq_getElem hl]
      simpa [List.get_eq_getElem] using heq
  · intro h
    rw [isRealPath, List.all_eq_true]
    intro i hi
    rw [List.all_eq_true]
    intro j hj
    rw [List.mem_range'_1] at hi hj
    rw [Bool.or_eq_true, decide_eq_true_iff, Bool.not_eq_true', beq_eq_false_iff_ne]
    by_cases hij : i = j
    · exact Or.inl hij
    · refine Or.inr ?_
      have hi2 : i - 1 < (interiorAtoms atoms).length := by omega
      have hj2 : j - 1 < (interiorAtoms atoms).length := by omega
      have e1 : (interiorAtoms atoms).get? (i - 1) = atoms.get? i := by
        rw [interiorAtoms_get? atoms _ hi2]; congr 1; omega
      have e2 : (interiorAtoms atoms).get? (j - 1) = atoms.get? j := by
        rw [interiorAtoms_get? atoms _ hj2]; congr 1; omega
      rw [← e1, ← e2]
      rw [List.nodup_iff_injective_get] at h
      intro he
      have hg1 : (interiorAtoms atoms).get? (i - 1) =
          some ((interiorAtoms atoms).get ⟨i - 1, hi2⟩) := by
        rw [List.get?_eq_getElem?, List.getElem?_eq_getElem hi2]
        simp [List.get_eq_getElem]
      have hg2 : (interiorAtoms atoms).get? (j - 1) =
          some ((interiorAtoms atoms).get ⟨j - 1, hj2⟩) := by
        rw [List.get?_eq_getElem?, List.getElem?_eq_getElem hj2]
        simp [List.get_eq_getElem]
      rw [hg1, hg2] at he
      have := h (Option.some_injective _ he)
      have : i - 1 = j - 1 := congrArg Fin.val this
      omega

/-- In a list sorted by a pairwise relation, the relation holds from every
member towards the last element (or the member is the last element). -/
theorem pairwise_rel_getLast {α : Type} {r : α → α → Prop} :
    ∀ (l : List α), l.Pairwise r → ∀ (hne : l ≠ []) (x : α), x ∈ l →
      x = l.getLast hne ∨ r x (l.getLast hne)
  | [], _, hne, _, _ => absurd rfl hne
  | [a], _, _, x, hx => by
      simp only [List.mem_singleton] at hx
      exact Or.inl (by simp [hx])
  | a :: b :: t, h, hne, x, hx => by
      have htne : b :: t ≠ [] := List.cons_ne_nil _ _
      rw [List.getLast_cons htne]
      rcases List.mem_cons.mp hx with rfl | hx2
      · refine Or.inr ?_
        exact (List.pairwise_cons.mp h).1 _ (List.getLast_mem htne)
      · exact pairwise_rel_getLast (b :: t) (List.pairwise_cons.mp h).2 htne x hx2

/-- The sorted-last ring-set selection returns a ring set of maximal size. -/
theorem largestRingset_max (rss : List (List Ring)) (hne : rss ≠ []) :
    ∃ L, largestRingset rss = some L ∧ ∀ s ∈ rss, s.length ≤ L.length := by
  have hperm := List.mergeSort_perm rss (fun a b => decide (a.length ≤ b.length))
  have hsorted := @List.sorted_mergeSort (List Ring)
    (fun a b => decide (a.length ≤ b.length))
    (fun a b c hab hbc => by
      rw [decide_eq_true_iff] at *; omega)
    (fun a b => by
      rw [Bool.or_eq_true, decide_eq_true_iff, decide_eq_true_iff]; omega)
    rss
  set sorted := rss.mergeSort (fun a b => decide (a.length ≤ b.length)) with hs
  have hsne : sorted ≠ [] := by
    intro h
    apply hne
    have := hperm.length_eq
    rw [h] at this
    exact List.eq_nil_of_length_eq_zero this.symm
  refine ⟨sorted.getLast hsne, ?_, ?_⟩
  · rw [largestRingset, ← hs, List.getLast?_eq_getLast _ hsne]
  · intro s hsmem
    have hs' : s ∈ sorted := hperm.mem_iff.mpr hsmem
    rcases pairwise_rel_getLast sorted hsorted hsne s hs' with h | h
    · rw [h]
    · simpa using h

/-- Length is preserved under iteration of a length-preserving body. -/
theorem iterate_length (body : Molecule → Molecule)
    (hpres : ∀ x, (body x).atoms.length = x.atoms.length) (m : Molecule) :
    ∀ j, (body^[j] m).atoms.length = m.atoms.length := by
  intro j
  induction j with
  | zero => rfl
  | succ j ih => rw [Function.iterate_succ_apply', hpres, ih]

/-- Specification of the alternation loop from an arbitrary entry point:
starting with the given safety counter and fuel covering the remaining
counter budget, the loop performs some further iterations of its body,
stopping at the first all-placed state or when the counter budget runs
out. -/
theorem altLoopGo_spec (body : Molecule → Molecule)
    (hpres : ∀ x, (body x).atoms.length = x.atoms.length) (m0 : Molecule) :
    ∀ fuel counter, 0 < fuel → counter + fuel = m0.atoms.length + 1 →
    ∃ k, counter + 1 ≤ k ∧ k ≤ m0.atoms.length + 1 ∧
      altLoopGo body m0.atoms.length fuel counter (body^[counter] m0) =
        body^[k] m0 ∧
      (∀ j, counter + 1 ≤ j → j < k →
        allPlacedAtoms (body^[j] m0) m0.atoms.length = false) ∧
      (allPlacedAtoms (body^[k] m0) m0.atoms.length = true ∨
        k = m0.atoms.length + 1) := by
  intro fuel
  induction fuel with
  | zero => intro counter h0 _; omega
  | succ fuel ih =>
    intro counter _ harith
    have hstep : body (body^[counter] m0) = body^[counter + 1] m0 :=
      (Function.iterate_succ_apply' body counter m0).symm
    have hlen2 : (body^[counter + 1] m0).atoms.length = m0.atoms.length :=
      iterate_length body hpres m0 (counter + 1)
    rw [altLoopGo]
    simp only [hstep]
    by_cases hc : ¬ allPlacedAtoms (body^[counter + 1] m0) m0.atoms.length ∧
        counter + 1 ≤ (body^[counter + 1] m0).atoms.length
    · rw [if_pos hc]
      have hfuel : 0 < fuel := by
        rcases Nat.eq_zero_or_pos fuel with hf | hf
        · exfalso
          have : counter + 1 ≤ m0.atoms.length := by rw [← hlen2]; exact hc.2
          omega
        · exact hf
      obtain ⟨k, hk1, hk2, hk3, hk4, hk5⟩ :=
        ih (counter + 1) hfuel (by omega)
      refine ⟨k, by omega, hk2, hk3, ?_, hk5⟩
      intro j hj1 hj2
      rcases Nat.eq_or_lt_of_le hj1 with rfl | hj3
      · exact Bool.not_eq_true _ ▸ (by simpa using hc.1)
      · exact hk4 j hj3 hj2
    · rw [if_neg hc]
      rw [Classical.not_and_iff_or_not_not] at hc
      refine ⟨counter + 1, le_refl _, by omega, rfl, by omega, ?_⟩
      rcases hc with hc | hc
      · left
        rw [Classical.not_not] at hc
        exact hc
      · right
        rw [hlen2] at hc
        omega

/-! ## Claim theorems -/

/-- Claim C1: for every molecule with more than one fragment and more than
one atom, generate throws the "Molecule not connected." error; at the moment
of failure the molecule carries its original atom coordinates and only the
four transient flags have been reset. -/
theorem claim1_disconnected_fails (rest : Molecule → Molecule) (m : Molecule)
    (hfrag : 1 < m.fragmentCount) (hat : 1 < m.atoms.length) :
    generateRun rest m = (resetAtomFlags m, some ("Molecule not connected.")) ∧
    (resetAtomFlags m).atoms.map (·.coord) = m.atoms.map (·.coord) ∧
    ∀ a ∈ (resetAtomFlags m).atoms,
      a.isplaced = false ∧ a.visited = false ∧ a.isinring = false ∧
        a.isaliphatic = false := by
  have hlen : (resetAtomFlags m).atoms.length = m.atoms.length := by
    simp [resetAtomFlags]
  refine ⟨?_, ?_, ?_⟩
  · rw [generateRun]
    rw [if_neg (by omega), if_pos (by simpa [resetAtomFlags] using hfrag)]
  · simp [resetAtomFlags, List.map_map]
  · intro a ha
    simp only [resetAtomFlags, List.mem_map] at ha
    obtain ⟨b, _, rfl⟩ := ha
    exact ⟨rfl, rfl, rfl, rfl⟩

/-- Witness for claim C1 at the concrete disconnected two-atom molecule. -/
theorem claim1_witness :
    1 < exDisconnectedMol.fragmentCount ∧ 1 < exDisconnectedMol.atoms.length ∧
    generateRun id exDisconnectedMol =
      (resetAtomFlags exDisconnectedMol, some ("Molecule not connected.")) :=
  ⟨by norm_num [exDisconnectedMol], by norm_num [exDisconnectedMol],
   (claim1_disconnected_fails id exDisconnectedMol
     (by norm_num [exDisconnectedMol]) (by norm_num [exDisconnectedMol])).1⟩

/-- Claim C2, divergence of the code from the claim: for the single-atom
molecule, generate returns right after the flag reset, but line 57 of
coordinate_generator.js writes the property named `coords`, so the atom's
`coord` field — the coordinate field the claim and the rest of the code refer
to — is left unset rather than set to the origin. -/
theorem claim2_single_atom_coord_left_unset :
    generateRun id exSingleAtomMol =
      ({ atoms := [{ coord := none, coords := some ((0 : ℝ), (0 : ℝ)) }] },
       none) ∧
    (generateRun id exSingleAtomMol).1.atoms.map (·.coord) = [none] :=
  ⟨rfl, rfl⟩

/-- Claim C3: the aliphatic/ring alternation loop runs its body between 1 and
countAtoms + 1 times, stops at the first state in which every atom is
flagged placed, and otherwise stops because the safety counter exceeded the
atom count, returning the state reached at that point. -/
theorem claim3_alternation_loop_bound (body : Molecule → Molecule)
    (m : Molecule) (hpres : ∀ x, (body x).atoms.length = x.atoms.length) :
    ∃ k, 1 ≤ k ∧ k ≤ m.atoms.length + 1 ∧ altLoop body m = body^[k] m ∧
      (∀ j, 1 ≤ j → j < k →
        allPlacedAtoms (body^[j] m) m.atoms.length = false) ∧
      (allPlacedAtoms (body^[k] m) m.atoms.length = true ∨
        k = m.atoms.length + 1) := by
  have h := altLoopGo_spec body hpres m (m.atoms.length + 1) 0 (by omega)
    (by omega)
  simpa [altLoop] using h

/-- Witness for claim C3: the identity body on the single-atom example. -/
theorem claim3_witness :
    ∃ k, 1 ≤ k ∧ k ≤ exSingleAtomMol.atoms.length + 1 ∧
      altLoop id exSingleAtomMol = id^[k] exSingleAtomMol ∧
      (∀ j, 1 ≤ j → j < k →
        allPlacedAtoms (id^[j] exSingleAtomMol) exSingleAtomMol.atoms.length =
          false) ∧
      (allPlacedAtoms (id^[k] exSingleAtomMol) exSingleAtomMol.atoms.length =
        true ∨ k = exSingleAtomMol.atoms.length + 1) :=
  claim3_alternation_loop_bound id exSingleAtomMol (fun _ => rfl)

/-- Claim C4, divergence of the code from the claim: on the example ring set,
getMostComplexRing returns the first ring, which shares atoms with no other
ring, even though the second ring shares an atom with one other ring; the
broken indexing `ring1[j]`, `ring2[l]` makes every comparison succeed, so the
neighbor counts depend only on ring sizes and positions. -/
theorem claim4_most_complex_ring_miscounts :
    getMostComplexRing exRingSet = some exRingA ∧
    sharesCount exRingA exRingSet = 0 ∧
    sharesCount exRingB exRingSet = 1 ∧ exRingB ∈ exRingSet := by
  refine ⟨?_, ?_, ?_, ?_⟩ <;> decide

/-- Claim C5, divergence of the code from the claim at the cyclopropane
example: the flagging step leaves every ISINRING flag false (the comma
expression on line 78 of coordinate_generator.js calls nothing) although
atom 0 lies on the SSSR ring and the spec-mandated behaviour would flag all
three atoms; the ring-set selection, in contrast, does pick a partition of
maximal size as the claim states. -/
theorem claim5_ring_flagging_skipped :
    flagRingAtomsStep exCyclopropaneSssr (resetAtomFlags exCyclopropane) =
      resetAtomFlags exCyclopropane ∧
    (0 : Nat) ∈ (canonRing 3).atoms ∧
    (flagRingAtomsStep exCyclopropaneSssr
      (resetAtomFlags exCyclopropane)).atoms.map (·.isinring) =
      [false, false, false] ∧
    (specFlagRingAtoms exCyclopropaneSssr
      (resetAtomFlags exCyclopropane)).atoms.map (·.isinring) =
      [true, true, true] ∧
    (∀ rss : List (List Ring), rss ≠ [] →
      ∃ L, largestRingset rss = some L ∧ ∀ s ∈ rss, s.length ≤ L.length) := by
  refine ⟨rfl, by decide, rfl, rfl, largestRingset_max⟩

/-- Witness for claim C5's universally quantified ring-set-selection part. -/
theorem claim5_witness :
    ∃ L, largestRingset [[canonRing 3]] = some L ∧
      ∀ s ∈ [[canonRing 3]], s.length ≤ L.length :=
  claim5_ring_flagging_skipped.2.2.2.2 [[canonRing 3]] (List.cons_ne_nil _ _)

/-- Claim C8: when two path edges share exactly one endpoint atom, splice
returns null exactly when the merged atom sequence repeats an interior atom,
otherwise the merged path edge itself, and a returned edge is classified a
cycle exactly when its first atom equals its last and its length exceeds 2. -/
theorem claim8_splice_null_iff_interior_duplicate (p q : List Nat)
    (hshare : ∃! a, isEndpointOf p a ∧ isEndpointOf q a) :
    ∃ a, getIntersection p q = Except.ok (some a) ∧
      splice p q =
        Except.ok (if (interiorAtoms (mergedAtomsWith (some a) p q)).Nodup
                   then some (mergedAtomsWith (some a) p q) else none) ∧
      ∀ r, splice p q = Except.ok (some r) →
        (isCycle r = true ↔ (r.head? = r.getLast? ∧ 2 < r.length)) := by
  obtain ⟨a, ⟨hpa, hqa⟩, huniq⟩ := hshare
  have hcyc : ∀ r : List Nat,
      isCycle r = true ↔ (r.head? = r.getLast? ∧ 2 < r.length) := by
    intro r
    rw [isCycle, Bool.and_eq_true, decide_eq_true_iff, beq_iff_eq]
    tauto
  have hInter : getIntersection p q = Except.ok (some a) := by
    rw [getIntersection]
    by_cases h1 : (p.getLast? == q.head? || p.getLast? == q.getLast?) = true
    · rw [if_pos h1]
      rcases Bool.or_eq_true _ _ |>.mp h1 with h | h
      · rw [beq_iff_eq] at h
        rcases hq : q.head? with _ | b
        · exfalso
          rw [hq] at h
          have hpnil : p = [] := by rwa [List.getLast?_eq_none_iff] at h
          rcases hpa with hx | hx <;> rw [hpnil] at hx <;> simp at hx
        · rw [hq] at h
          have hb : b = a := huniq b ⟨Or.inr h, Or.inl hq⟩
          rw [h, hb]
      · rw [beq_iff_eq] at h
        rcases hq : q.getLast? with _ | b
        · exfalso
          rw [hq] at h
          have hpnil : p = [] := by rwa [List.getLast?_eq_none_iff] at h
          rcases hpa with hx | hx <;> rw [hpnil] at hx <;> simp at hx
        · rw [hq] at h
          have hb : b = a := huniq b ⟨Or.inr h, Or.inr hq⟩
          rw [h, hb]
    · rw [if_neg h1]
      have hph : p.head? = some a := by
        rcases hpa with hx | hx
        · exact hx
        · exfalso
          apply h1
          rw [Bool.or_eq_true]
          rcases hqa with hy | hy
          · exact Or.inl (by rw [beq_iff_eq, hx, hy])
          · exact Or.inr (by rw [beq_iff_eq, hx, hy])
      have h2 : (p.head? == q.head? || p.head? == q.getLast?) = true := by
        rw [Bool.or_eq_true]
        rcases hqa with hy | hy
        · exact Or.inl (by rw [beq_iff_eq, hph, hy])
        · exact Or.inr (by rw [beq_iff_eq, hph, hy])
      rw [if_pos h2, hph]
  refine ⟨a, hInter, ?_, fun r _ => hcyc r⟩
  simp only [splice, hInter]
  by_cases hr : isRealPath (mergedAtomsWith (some a) p q) = true
  · rw [if_pos hr, if_pos ((isRealPath_iff_nodup _).mp hr)]
  · rw [if_neg hr, if_neg (fun hn => hr ((isRealPath_iff_nodup _).mpr hn))]

/-- Witness for claim C8 at the concrete pair [1,2] and [2,3]. -/
theorem claim8_witness :
    ∃ a, getIntersection [1, 2] [2, 3] = Except.ok (some a) ∧
      splice [1, 2] [2, 3] =
        Except.ok (if (interiorAtoms (mergedAtomsWith (some a) [1, 2] [2, 3])).Nodup
                   then some (mergedAtomsWith (some a) [1, 2] [2, 3]) else none) ∧
      ∀ r, splice [1, 2] [2, 3] = Except.ok (some r) →
        (isCycle r = true ↔ (r.head? = r.getLast? ∧ 2 < r.length)) :=
  claim8_splice_null_iff_interior_duplicate [1, 2] [2, 3]
    ⟨2, by constructor <;> decide, by
      intro b hb
      have h1 := hb.1
      have h2 := hb.2
      unfold isEndpointOf at h1 h2
      simp at h1 h2
      omega⟩

/-- Claim C10: two path edges sharing no endpoint make splice throw the
no-intersection error rather than return a null result, and whenever a shared
endpoint exists getIntersection returns one and splice never throws. -/
theorem claim10_no_intersection_throws (p q : List Nat)
    (hp : p ≠ []) (hq : q ≠ []) :
    ((¬ ∃ a, isEndpointOf p a ∧ isEndpointOf q a) →
      splice p q = Except.error ("Couldnt splice - no intersection")) ∧
    ((∃ a, isEndpointOf p a ∧ isEndpointOf q a) →
      ∃ a, getIntersection p q = Except.ok (some a) ∧ isEndpointOf p a ∧
        isEndpointOf q a ∧ ∀ e, splice p q ≠ Except.error e) := by
  constructor
  · intro hno
    have h1 : (p.getLast? == q.head? || p.getLast? == q.getLast?) = false := by
      rw [Bool.or_eq_false_iff]
      constructor <;> rw [beq_eq_false_iff_ne] <;> intro he <;> apply hno
      · exact ⟨p.getLast hp,
          Or.inr (List.getLast?_eq_getLast p hp),
          Or.inl (by rw [← he]; exact List.getLast?_eq_getLast p hp)⟩
      · exact ⟨p.getLast hp,
          Or.inr (List.getLast?_eq_getLast p hp),
          Or.inr (by rw [← he]; exact List.getLast?_eq_getLast p hp)⟩
    have h2 : (p.head? == q.head? || p.head? == q.getLast?) = false := by
      rw [Bool.or_eq_false_iff]
      constructor <;> rw [beq_eq_false_iff_ne] <;> intro he <;> apply hno
      · exact ⟨p.head hp,
          Or.inl (List.head?_eq_head hp),
          Or.inl (by rw [← he]; exact List.head?_eq_head hp)⟩
      · exact ⟨p.head hp,
          Or.inl (List.head?_eq_head hp),
          Or.inr (by rw [← he]; exact List.head?_eq_head hp)⟩
    rw [splice, getIntersection, if_neg (by rw [h1]; exact Bool.false_ne_true),
        if_neg (by rw [h2]; exact Bool.false_ne_true)]
  · rintro ⟨a, hpa, hqa⟩
    have hmain : ∃ b, getIntersection p q = Except.ok (some b) ∧
        isEndpointOf p b ∧ isEndpointOf q b := by
      rw [getIntersection]
      by_cases h1 : (p.getLast? == q.head? || p.getLast? == q.getLast?) = true
      · rw [if_pos h1]
        refine ⟨p.getLast hp, ?_, Or.inr (List.getLast?_eq_getLast p hp), ?_⟩
        · rw [List.getLast?_eq_getLast p hp]
        · rcases Bool.or_eq_true _ _ |>.mp h1 with h | h <;> rw [beq_iff_eq] at h
          · exact Or.inl (by rw [← h]; exact List.getLast?_eq_getLast p hp)
          · exact Or.inr (by rw [← h]; exact List.getLast?_eq_getLast p hp)
      · rw [if_neg h1]
        have hph : p.head? = some a := by
          rcases hpa with hx | hx
          · exact hx
          · exfalso
            apply h1
            rw [Bool.or_eq_true]
            rcases hqa with hy | hy
            · exact Or.inl (by rw [beq_iff_eq, hx, hy])
            · exact Or.inr (by rw [beq_iff_eq, hx, hy])
        have h2 : (p.head? == q.head? || p.head? == q.getLast?) = true := by
          rw [Bool.or_eq_true]
          rcases hqa with hy | hy
          · exact Or.inl (by rw [beq_iff_eq, hph, hy])
          · exact Or.inr (by rw [beq_iff_eq, hph, hy])
        rw [if_pos h2, hph]
        exact ⟨a, rfl, Or.inl hph, hqa⟩
    obtain ⟨b, hb1, hb2, hb3⟩ := hmain
    refine ⟨b, hb1, hb2, hb3, ?_⟩
    intro e
    simp only [splice, hb1]
    by_cases hr : isRealPath (mergedAtomsWith (some b) p q) = true
    · rw [if_pos hr]; intro h; exact Except.noConfusion h
    · rw [if_neg hr]; intro h; exact Except.noConfusion h

/-- Witness for claim C10 at the concrete disjoint pair [1,2] and [3,4]. -/
theorem claim10_witness :
    splice [1, 2] [3, 4] = Except.error ("Couldnt splice - no intersection") :=
  (claim10_no_intersection_throws [1, 2] [3, 4] (by decide) (by decide)).1
    (by
      rintro ⟨a, h1, h2⟩
      unfold isEndpointOf at h1 h2
      simp at h1 h2
      omega)

-- basic evaluation lemmas
theorem lenV_def (v : Vec2) : lenV v = Real.sqrt (v.1^2 + v.2^2) := rfl

theorem lenV_cos_sin (r θ : ℝ) (hr : 0 ≤ r) :
    lenV (r * Real.cos θ, r * Real.sin θ) = r := by
  rw [lenV_def]
  have : (r * Real.cos θ)^2 + (r * Real.sin θ)^2 = r^2 := by
    have h := Real.sin_sq_add_cos_sq θ
    nlinarith
  rw [this, Real.sqrt_sq hr]

theorem getAngle_of_cos_sin (r θ : ℝ) (hr : 0 < r) (hθ : θ ∈ Set.Ioc (-Real.pi) Real.pi) :
    getAngle (r * Real.cos θ) (r * Real.sin θ) = θ := by
  rw [getAngle]
  have hmk : (⟨r * Real.cos θ, r * Real.sin θ⟩ : ℂ) =
      (r : ℂ) * (Complex.cos θ + Complex.sin θ * Complex.I) := by
    apply Complex.ext <;> simp [Complex.cos_ofReal_re, Complex.sin_ofReal_re]
  rw [hmk, Complex.arg_real_mul _ hr, Complex.arg_cos_add_sin_mul_I hθ]

-- the square root needed everywhere
theorem sqrt_three_quarters (bl : ℝ) (hbl : 0 ≤ bl) :
    Real.sqrt (bl^2 - (bl/2)^2) = Real.sqrt 3 / 2 * bl := by
  have h : bl^2 - (bl/2)^2 = (Real.sqrt 3 / 2 * bl)^2 := by
    have h3 : Real.sqrt 3 ^ 2 = 3 := Real.sq_sqrt (by norm_num)
    nlinarith
  rw [h, Real.sqrt_sq (by positivity)]

theorem radius6 (bl : ℝ) : getNativeRingRadius 6 bl = bl := by
  rw [getNativeRingRadius]
  norm_num [Real.sin_pi_div_six]

theorem canon6_atoms_len : (canonRing 6).atoms.length = 6 := by decide

theorem mcr_single : getMostComplexRing [canonRing 6] = some (canonRing 6) := by decide

theorem draw6 : fusedDrawLoop (canonRing 6) 4 ⟨0, 1⟩ 1 = [2, 3, 4, 5] := by decide

theorem canon6_bonds : (canonRing 6).bonds =
    [⟨0,1⟩, ⟨1,2⟩, ⟨2,3⟩, ⟨3,4⟩, ⟨4,5⟩, ⟨5,0⟩] := by decide

-- lenV (0,1) = 1 and the scaled first bond vector
theorem normalize01 : normalizeV ((0:ℝ), (1:ℝ)) = ((0:ℝ), (1:ℝ)) := by
  rw [normalizeV, lenV_def]
  norm_num

theorem scale01 (bl : ℝ) : scaleV bl ((0:ℝ), (1:ℝ)) = ((0:ℝ), bl) := by
  rw [scaleV]; norm_num

-- getAngle at the two concrete inputs
theorem getAngle_01 (bl : ℝ) (hbl : 0 < bl) : getAngle 0 bl = Real.pi / 2 := by
  have h : getAngle 0 bl = getAngle (bl * Real.cos (Real.pi/2)) (bl * Real.sin (Real.pi/2)) := by
    norm_num [Real.cos_pi_div_two, Real.sin_pi_div_two]
  rw [h, getAngle_of_cos_sin bl _ hbl]
  constructor
  · nlinarith [Real.pi_pos]
  · linarith [Real.pi_pos]

theorem getAngle_pi6 (bl : ℝ) (hbl : 0 < bl) :
    getAngle (Real.sqrt 3 / 2 * bl) (bl / 2) = Real.pi / 6 := by
  have h : getAngle (Real.sqrt 3 / 2 * bl) (bl / 2) =
      getAngle (bl * Real.cos (Real.pi/6)) (bl * Real.sin (Real.pi/6)) := by
    rw [Real.cos_pi_div_six, Real.sin_pi_div_six]
    ring_nf
  rw [h, getAngle_of_cos_sin bl _ hbl]
  constructor
  · nlinarith [Real.pi_pos]
  · linarith [Real.pi_pos]

-- center of the first ring for the benzene seed
theorem firstRingCenter6 (bl : ℝ) (hbl : 0 < bl) :
    getRingCenterOfFirstRing (canonRing 6) ((0:ℝ), bl) bl =
      (-(Real.sqrt 3 / 2 * bl), 0) := by
  rw [getRingCenterOfFirstRing]
  simp only [canon6_atoms_len, Nat.cast_ofNat]
  rw [getAngle_01 bl hbl, show Real.pi/2 + Real.pi/2 = Real.pi by ring]
  have hr : bl / (2 * Real.sin (Real.pi / 6)) = bl := by
    norm_num [Real.sin_pi_div_six]
  rw [hr, Real.cos_pi, Real.sin_pi, sqrt_three_quarters bl hbl.le]
  norm_num

-- occupied angle of the shared bond seen from the benzene center
theorem occAngle6 (bl : ℝ) (hbl : 0 < bl) :
    vecAngleBetween (Real.sqrt 3 / 2 * bl, -(bl/2)) (Real.sqrt 3 / 2 * bl, bl/2) =
      Real.pi / 3 := by
  have h3 : Real.sqrt 3 ^ 2 = 3 := Real.sq_sqrt (by norm_num)
  have hlen1 : lenV (Real.sqrt 3 / 2 * bl, -(bl/2)) = bl := by
    rw [lenV_def]
    have : (Real.sqrt 3 / 2 * bl)^2 + (-(bl/2))^2 = bl^2 := by nlinarith
    rw [this, Real.sqrt_sq hbl.le]
  have hlen2 : lenV (Real.sqrt 3 / 2 * bl, bl/2) = bl := by
    rw [lenV_def]
    have : (Real.sqrt 3 / 2 * bl)^2 + (bl/2)^2 = bl^2 := by nlinarith
    rw [this, Real.sqrt_sq hbl.le]
  rw [vecAngleBetween, hlen1, hlen2, dotV]
  have hd : Real.sqrt 3 / 2 * bl * (Real.sqrt 3 / 2 * bl) + -(bl/2) * (bl/2) =
      bl^2 / 2 := by nlinarith
  rw [hd]
  have he : bl^2 / 2 / (bl * bl) = 1/2 := by
    rw [div_eq_iff (by positivity)]
    ring
  rw [he]
  rw [show (1:ℝ)/2 = Real.cos (Real.pi/3) from (Real.cos_pi_div_three).symm]
  exact Real.arccos_cos (by positivity) (by linarith [Real.pi_pos])


theorem benzSeedState_coord0 (bl : ℝ) : (benzSeedState bl).coord 0 = ((0:ℝ), (0:ℝ)) := by
  simp [benzSeedState, setAtomCoordPlaced, Function.update]

theorem benzSeedState_coord1 (bl : ℝ) : (benzSeedState bl).coord 1 = ((0:ℝ), bl) := by
  simp [benzSeedState, setAtomCoordPlaced, Function.update]

theorem seedBenzene_step1 (bl : ℝ) (hbl : 0 < bl) :
    seedFirstRingSet ((0:ℝ), (1:ℝ)) [canonRing 6] bl initGState =
      placeFusedRing (canonRing 6) ⟨[0, 1], [⟨0, 1⟩]⟩ ((0:ℝ), bl / 2)
        (-(Real.sqrt 3 / 2 * bl), 0) bl (benzSeedState bl) := by
  rw [seedFirstRingSet]
  simp only [mcr_single]
  rw [show (canonRing 6).isPlacedFlag = false from rfl]
  simp only [Bool.false_eq_true, if_false, canon6_bonds]
  simp only [placeFirstBond, normalize01, scale01]
  rw [show (setAtomCoordPlaced (setAtomCoordPlaced initGState 0 ((0:ℝ), (0:ℝ))) 1
        ((0:ℝ), bl)) = benzSeedState bl from rfl]
  rw [benzSeedState_coord0, benzSeedState_coord1]
  rw [firstRingCenter6 bl hbl]
  rw [placeRing, if_pos (by rfl)]
  norm_num

theorem fusedCenter6 (bl : ℝ) (hbl : 0 < bl) :
    fusedRingCenter ((0:ℝ), bl/2) (-(Real.sqrt 3/2*bl), 0) bl bl =
      (-(Real.sqrt 3/2*bl), bl/2) := by
  have hp : (0:ℝ) < Real.sqrt 3/2*bl := by positivity
  rw [fusedRingCenter]
  have hlen : lenV (-(Real.sqrt 3/2*bl), (0:ℝ)) = Real.sqrt 3/2*bl := by
    rw [lenV_def,
        show (-(Real.sqrt 3/2*bl))^2 + (0:ℝ)^2 = (Real.sqrt 3/2*bl)^2 by ring,
        Real.sqrt_sq hp.le]
  rw [normalizeV, hlen, sqrt_three_quarters bl hbl.le, scaleV, addV]
  have h1 : -(Real.sqrt 3/2*bl) / (Real.sqrt 3/2*bl) = -1 := by
    field_simp
    ring
  rw [h1]
  norm_num

theorem canon6_bonds_len : (canonRing 6).bonds.length = 6 := by decide

theorem benzFused_eval (bl : ℝ) (hbl : 0 < bl) :
    placeFusedRing (canonRing 6) ⟨[0, 1], [⟨0, 1⟩]⟩ ((0:ℝ), bl/2)
      (-(Real.sqrt 3 / 2 * bl), 0) bl (benzSeedState bl) =
    populatePolygonCorners [2, 3, 4, 5] (-(Real.sqrt 3/2*bl), bl/2)
      (Real.pi/6) (Real.pi/3) bl (benzSeedState bl) := by
  have hp : (0:ℝ) < Real.sqrt 3/2*bl := by positivity
  rw [placeFusedRing]
  simp only [canon6_atoms_len, canon6_bonds_len, radius6, fusedCenter6 bl hbl,
    benzSeedState_coord0, benzSeedState_coord1]
  rw [show subV ((0:ℝ), (0:ℝ)) (-(Real.sqrt 3/2*bl), bl/2) =
      (Real.sqrt 3/2*bl, -(bl/2)) by rw [subV]; norm_num]
  rw [show subV ((0:ℝ), bl) (-(Real.sqrt 3/2*bl), bl/2) =
      (Real.sqrt 3/2*bl, bl/2) by rw [subV]; norm_num; ring]
  rw [occAngle6 bl hbl]
  rw [show ((0:ℝ), (0:ℝ)).1 - ((0:ℝ), bl).1 = 0 by norm_num]
  rw [if_pos rfl]
  rw [if_neg (by norm_num [hbl.le] : ¬ (((0:ℝ), (0:ℝ)).2 > ((0:ℝ), bl).2))]
  rw [if_pos (by norm_num [hp] : ((-(Real.sqrt 3/2*bl), bl/2) : Vec2).1 < ((0:ℝ),(0:ℝ)).1)]
  rw [benzSeedState_coord1]
  rw [show ((0:ℝ), bl).1 - (-(Real.sqrt 3/2*bl)) = Real.sqrt 3/2*bl by norm_num]
  rw [show ((0:ℝ), bl).2 - bl/2 = bl/2 by norm_num; ring]
  rw [getAngle_pi6 bl hbl]
  rw [show (6:ℕ) - 2 = 4 from rfl]
  rw [draw6]
  rw [show (2*Real.pi - Real.pi/3) / (((6:ℕ):ℝ) - 1) * 1 = Real.pi/3 by push_cast; ring]

theorem populate4_coords (c : Vec2) (ang add rad : ℝ) (s : GState) :
    ((populatePolygonCorners [2, 3, 4, 5] c ang add rad s).coord 0 = s.coord 0) ∧
    ((populatePolygonCorners [2, 3, 4, 5] c ang add rad s).coord 1 = s.coord 1) ∧
    ((populatePolygonCorners [2, 3, 4, 5] c ang add rad s).coord 2 =
      (c.1 + rad * Real.cos (ang + add), c.2 + rad * Real.sin (ang + add))) ∧
    ((populatePolygonCorners [2, 3, 4, 5] c ang add rad s).coord 3 =
      (c.1 + rad * Real.cos (ang + add + add), c.2 + rad * Real.sin (ang + add + add))) ∧
    ((populatePolygonCorners [2, 3, 4, 5] c ang add rad s).coord 4 =
      (c.1 + rad * Real.cos (ang + add + add + add),
       c.2 + rad * Real.sin (ang + add + add + add))) ∧
    ((populatePolygonCorners [2, 3, 4, 5] c ang add rad s).coord 5 =
      (c.1 + rad * Real.cos (ang + add + add + add + add),
       c.2 + rad * Real.sin (ang + add + add + add + add))) := by
  refine ⟨?_, ?_, ?_, ?_, ?_, ?_⟩ <;>
    simp [populatePolygonCorners, setAtomCoordPlaced, Function.update]

theorem lenP1 (bl : ℝ) (hbl : 0 ≤ bl) :
    lenV (Real.sqrt 3 / 2 * bl, -(bl/2)) = bl := by
  have h3 : Real.sqrt 3 ^ 2 = 3 := Real.sq_sqrt (by norm_num)
  rw [lenV_def]
  have : (Real.sqrt 3 / 2 * bl)^2 + (-(bl/2))^2 = bl^2 := by nlinarith
  rw [this, Real.sqrt_sq hbl]

theorem lenP2 (bl : ℝ) (hbl : 0 ≤ bl) :
    lenV (Real.sqrt 3 / 2 * bl, bl/2) = bl := by
  have h3 : Real.sqrt 3 ^ 2 = 3 := Real.sq_sqrt (by norm_num)
  rw [lenV_def]
  have : (Real.sqrt 3 / 2 * bl)^2 + (bl/2)^2 = bl^2 := by nlinarith
  rw [this, Real.sqrt_sq hbl]

/-- Claim C6: placeFirstBond puts the first bond's source at the origin and
its target at the bond vector normalized and scaled to the bond length,
flagging both placed; getRingCenterOfFirstRing returns a vector perpendicular
to the bond vector of length sqrt(r² − (bl/2)²) with r = bl/(2·sin(π/n)) for
an n-atom ring; and seeding the benzene six-ring from bond vector (0,1)
places all six atoms on a regular hexagon of circumradius bl/(2·sin(π/6))
about the center (−(√3/2)·bl, bl/2), with the seed bond's source at the
origin, its target at (0, bl), and the remaining four atoms at polygon angles
π/6 + k·π/3. -/
theorem claim6_seed_first_ring (bl : ℝ) (hbl : 0 < bl) :
    (∀ (bond : Bond) (v : Vec2) (s : GState), bond.source ≠ bond.target →
      (placeFirstBond bond v bl s).1.coord bond.source = ((0:ℝ), (0:ℝ)) ∧
      (placeFirstBond bond v bl s).1.placed bond.source = true ∧
      (placeFirstBond bond v bl s).1.coord bond.target = scaleV (bl / lenV v) v ∧
      (placeFirstBond bond v bl s).1.placed bond.target = true) ∧
    (∀ (ring : Ring) (v : Vec2), v ≠ ((0:ℝ), (0:ℝ)) →
      dotV (getRingCenterOfFirstRing ring v bl) v = 0 ∧
      lenV (getRingCenterOfFirstRing ring v bl) =
        Real.sqrt ((bl / (2 * Real.sin (Real.pi / (ring.atoms.length : ℝ)))) ^ 2 -
          (bl / 2) ^ 2)) ∧
    ((seedFirstRingSet ((0:ℝ), (1:ℝ)) [canonRing 6] bl initGState).coord 0 =
      ((0:ℝ), (0:ℝ)) ∧
     (seedFirstRingSet ((0:ℝ), (1:ℝ)) [canonRing 6] bl initGState).coord 1 =
      ((0:ℝ), bl) ∧
     (∀ k : ℕ, 1 ≤ k → k ≤ 4 →
       (seedFirstRingSet ((0:ℝ), (1:ℝ)) [canonRing 6] bl initGState).coord (k + 1) =
         addV (-(Real.sqrt 3 / 2 * bl), bl / 2)
           (scaleV bl (Real.cos (Real.pi/6 + k * (Real.pi/3)),
                       Real.sin (Real.pi/6 + k * (Real.pi/3))))) ∧
     (∀ i : ℕ, i < 6 →
       lenV (subV ((seedFirstRingSet ((0:ℝ), (1:ℝ)) [canonRing 6] bl initGState).coord i)
         (-(Real.sqrt 3 / 2 * bl), bl / 2)) = bl / (2 * Real.sin (Real.pi/6)))) := by
  have hfinal : seedFirstRingSet ((0:ℝ), (1:ℝ)) [canonRing 6] bl initGState =
      populatePolygonCorners [2, 3, 4, 5] (-(Real.sqrt 3/2*bl), bl/2)
        (Real.pi/6) (Real.pi/3) bl (benzSeedState bl) := by
    rw [seedBenzene_step1 bl hbl, benzFused_eval bl hbl]
  obtain ⟨hc0, hc1, hc2, hc3, hc4, hc5⟩ :=
    populate4_coords (-(Real.sqrt 3/2*bl), bl/2) (Real.pi/6) (Real.pi/3) bl
      (benzSeedState bl)
  have hrad : bl / (2 * Real.sin (Real.pi/6)) = bl := by
    norm_num [Real.sin_pi_div_six]
  refine ⟨?_, ?_, ?_, ?_, ?_, ?_⟩
  · -- placeFirstBond
    intro bond v s hst
    rw [placeFirstBond]
    refine ⟨?_, ?_, ?_, ?_⟩
    · simp only [setAtomCoordPlaced]
      rw [Function.update_noteq hst, Function.update_same]
    · simp only [setAtomCoordPlaced]
      rw [Function.update_noteq hst, Function.update_same]
    · simp only [setAtomCoordPlaced]
      rw [Function.update_same, scaleV, scaleV, normalizeV]
      simp only [Prod.mk.injEq]
      constructor <;> ring
    · simp only [setAtomCoordPlaced]
      rw [Function.update_same]
  · -- getRingCenterOfFirstRing
    intro ring v hv
    have hz : (⟨v.1, v.2⟩ : ℂ) ≠ 0 := by
      intro h
      apply hv
      have h1 := congrArg Complex.re h
      have h2 := congrArg Complex.im h
      simp at h1 h2
      exact Prod.ext h1 h2
    have habs : Complex.abs ⟨v.1, v.2⟩ = lenV v := by
      rw [Complex.abs_apply, Complex.normSq_mk, lenV_def]
      ring_nf
    rw [getRingCenterOfFirstRing]
    constructor
    · rw [dotV]
      dsimp only
      rw [Real.cos_add_pi_div_two, Real.sin_add_pi_div_two, getAngle,
          Complex.sin_arg, Complex.cos_arg hz]
      simp only [habs]
      field_simp
      exact Or.inl (by ring)
    · rw [lenV_def]
      dsimp only
      have hh : (Real.cos (getAngle v.1 v.2 + Real.pi/2) *
          Real.sqrt ((bl / (2 * Real.sin (Real.pi / (ring.atoms.length : ℝ))))^2 - (bl/2)^2))^2 +
          (Real.sin (getAngle v.1 v.2 + Real.pi/2) *
          Real.sqrt ((bl / (2 * Real.sin (Real.pi / (ring.atoms.length : ℝ))))^2 - (bl/2)^2))^2 =
          (Real.sqrt ((bl / (2 * Real.sin (Real.pi / (ring.atoms.length : ℝ))))^2 - (bl/2)^2))^2 := by
        have hsc := Real.sin_sq_add_cos_sq (getAngle v.1 v.2 + Real.pi/2)
        nlinarith
      rw [hh, Real.sqrt_sq (Real.sqrt_nonneg _)]
  · rw [hfinal, hc0, benzSeedState_coord0]
  · rw [hfinal, hc1, benzSeedState_coord1]
  · intro k hk1 hk4
    rw [hfinal]
    interval_cases k
    · rw [hc2, addV, scaleV]
      norm_num
    · rw [hc3, addV, scaleV]
      rw [show Real.pi/6 + Real.pi/3 + Real.pi/3 = Real.pi/6 + (2:ℕ) * (Real.pi/3) by
        push_cast; ring]
    · rw [hc4, addV, scaleV]
      rw [show Real.pi/6 + Real.pi/3 + Real.pi/3 + Real.pi/3 =
        Real.pi/6 + (3:ℕ) * (Real.pi/3) by push_cast; ring]
    · rw [hc5, addV, scaleV]
      rw [show Real.pi/6 + Real.pi/3 + Real.pi/3 + Real.pi/3 + Real.pi/3 =
        Real.pi/6 + (4:ℕ) * (Real.pi/3) by push_cast; ring]
  · intro i hi
    rw [hfinal, hrad]
    have hsub : ∀ w : Vec2, subV (((-(Real.sqrt 3/2*bl), bl/2) : Vec2).1 + bl * Real.cos w.1,
        ((-(Real.sqrt 3/2*bl), bl/2) : Vec2).2 + bl * Real.sin w.1) (-(Real.sqrt 3/2*bl), bl/2) =
        (bl * Real.cos w.1, bl * Real.sin w.1) := by
      intro w
      rw [subV]
      simp only [Prod.mk.injEq]
      constructor <;> dsimp only <;> ring
    interval_cases i
    · rw [hc0, benzSeedState_coord0]
      rw [show subV ((0:ℝ), (0:ℝ)) (-(Real.sqrt 3/2*bl), bl/2) =
        (Real.sqrt 3/2*bl, -(bl/2)) by rw [subV]; norm_num]
      exact lenP1 bl hbl.le
    · rw [hc1, benzSeedState_coord1]
      rw [show subV ((0:ℝ), bl) (-(Real.sqrt 3/2*bl), bl/2) =
        (Real.sqrt 3/2*bl, bl/2) by rw [subV]; norm_num; ring]
      exact lenP2 bl hbl.le
    · rw [hc2]
      rw [hsub ⟨Real.pi/6 + Real.pi/3, 0⟩]
      exact lenV_cos_sin bl _ hbl.le
    · rw [hc3]
      rw [hsub ⟨Real.pi/6 + Real.pi/3 + Real.pi/3, 0⟩]
      exact lenV_cos_sin bl _ hbl.le
    · rw [hc4]
      rw [hsub ⟨Real.pi/6 + Real.pi/3 + Real.pi/3 + Real.pi/3, 0⟩]
      exact lenV_cos_sin bl _ hbl.le
    · rw [hc5]
      rw [hsub ⟨Real.pi/6 + Real.pi/3 + Real.pi/3 + Real.pi/3 + Real.pi/3, 0⟩]
      exact lenV_cos_sin bl _ hbl.le


/-- Witness for claim C6 at bond length 1. -/
theorem claim6_witness :
    (seedFirstRingSet ((0:ℝ), (1:ℝ)) [canonRing 6] 1 initGState).coord 0 =
      ((0:ℝ), (0:ℝ)) ∧
    (seedFirstRingSet ((0:ℝ), (1:ℝ)) [canonRing 6] 1 initGState).coord 1 =
      ((0:ℝ), (1:ℝ)) :=
  ⟨(claim6_seed_first_ring 1 (by norm_num)).2.2.1,
   (claim6_seed_first_ring 1 (by norm_num)).2.2.2.1⟩

/-! ## Fused-ring placement: general theorem for claim C7 -/

/-! ## The bond walk around the canonical ring (placeFusedRing lines 618 to 623) -/

theorem find?_range' (q : Nat → Bool) :
    ∀ (len s j : Nat), s ≤ j → j < s + len → q j = true →
      (∀ t, s ≤ t → t < j → q t = false) →
      List.find? q (List.range' s len) = some j := by
  intro len
  induction len with
  | zero => intro s j h1 h2 _ _; omega
  | succ len ih =>
    intro s j h1 h2 h3 h4
    rw [List.range'_succ]
    by_cases hqs : q s = true
    · have hsj : s = j := by
        by_contra hne
        have hf := h4 s le_rfl (by omega)
        rw [hf] at hqs
        exact absurd hqs (by simp)
      rw [List.find?_cons_of_pos _ hqs, hsj]
    · rw [List.find?_cons_of_neg _ hqs]
      have hsj : s ≠ j := by
        intro he; rw [he] at hqs; exact hqs h3
      exact ih (s + 1) j (by omega) (by omega) h3 (fun t ht1 ht2 => h4 t (by omega) ht2)

/-- The predicate getNextBond scans with, on the canonical ring's bond at
index j. -/
theorem getNextBond_canon (n : Nat) (bond : Bond) (atom : Nat) :
    getNextBond (canonRing n) bond atom =
      Option.map (fun i => Bond.mk i ((i + 1) % n))
        (List.find? (fun i => !(Bond.mk i ((i + 1) % n) == bond) &&
          (i == atom || (i + 1) % n == atom)) (List.range' 0 n)) := by
  rw [getNextBond, canonRing]
  rw [List.find?_map]
  rw [List.range_eq_range']
  rfl

theorem getnb_asc (n a : Nat) (h1 : 1 ≤ a) (h2 : a + 1 < n) :
    getNextBond (canonRing n) ⟨a - 1, a⟩ a = some ⟨a, a + 1⟩ := by
  rw [getNextBond_canon]
  rw [find?_range' _ n 0 a (by omega) (by omega) ?_ ?_]
  · rw [Option.map_some']
    congr 1
    rw [Bond.mk.injEq]
    exact ⟨rfl, Nat.mod_eq_of_lt (by omega)⟩
  · rw [Bool.and_eq_true, Bool.or_eq_true]
    constructor
    · rw [Bool.not_eq_true', beq_eq_false_iff_ne]
      intro he
      have := congrArg Bond.source he
      simp at this
      omega
    · exact Or.inl (by simp)
  · intro t _ ht2
    by_cases hta : t + 1 = a
    · have : Bond.mk t ((t + 1) % n) = Bond.mk (a - 1) a := by
        rw [Bond.mk.injEq]
        constructor
        · omega
        · rw [Nat.mod_eq_of_lt (by omega)]; omega
      rw [this]
      simp
    · have hs : (t == a) = false := by simp; omega
      have hmod : (t + 1) % n = t + 1 := Nat.mod_eq_of_lt (by omega)
      have ht : ((t + 1) % n == a) = false := by rw [hmod]; simp; omega
      rw [hs, ht]
      simp

theorem getnb_desc0 (n : Nat) (hn : 3 ≤ n) :
    getNextBond (canonRing n) ⟨0, 1⟩ 0 = some ⟨n - 1, 0⟩ := by
  rw [getNextBond_canon]
  rw [find?_range' _ n 0 (n - 1) (by omega) (by omega) ?_ ?_]
  · rw [Option.map_some']
    congr 1
    rw [Bond.mk.injEq]
    refine ⟨rfl, ?_⟩
    rw [show n - 1 + 1 = n by omega, Nat.mod_self]
  · rw [Bool.and_eq_true, Bool.or_eq_true]
    constructor
    · rw [Bool.not_eq_true', beq_eq_false_iff_ne]
      intro he
      have := congrArg Bond.source he
      simp at this
      omega
    · refine Or.inr ?_
      rw [show n - 1 + 1 = n by omega, Nat.mod_self]
      rfl
  · intro t _ ht2
    by_cases ht0 : t = 0
    · subst ht0
      have : Bond.mk 0 ((0 + 1) % n) = Bond.mk 0 1 := by
        rw [Bond.mk.injEq]
        exact ⟨rfl, Nat.mod_eq_of_lt (by omega)⟩
      rw [this]
      simp
    · have hs : (t == 0) = false := by simp; omega
      have hmod : (t + 1) % n = t + 1 := Nat.mod_eq_of_lt (by omega)
      have ht : ((t + 1) % n == 0) = false := by rw [hmod]; simp
      rw [hs, ht]
      simp

theorem getnb_desc (n a : Nat) (h2 : 2 ≤ a) (h3 : a < n) :
    getNextBond (canonRing n) ⟨a, (a + 1) % n⟩ a = some ⟨a - 1, a⟩ := by
  rw [getNextBond_canon]
  rw [find?_range' _ n 0 (a - 1) (by omega) (by omega) ?_ ?_]
  · rw [Option.map_some']
    congr 1
    rw [Bond.mk.injEq]
    exact ⟨rfl, by rw [Nat.mod_eq_of_lt (by omega)]; omega⟩
  · rw [Bool.and_eq_true, Bool.or_eq_true]
    constructor
    · rw [Bool.not_eq_true', beq_eq_false_iff_ne]
      intro he
      have := congrArg Bond.source he
      simp at this
      omega
    · refine Or.inr ?_
      rw [Nat.mod_eq_of_lt (by omega)]
      simp
      omega
  · intro t _ ht2
    have hs : (t == a) = false := by simp; omega
    have hmod : (t + 1) % n = t + 1 := Nat.mod_eq_of_lt (by omega)
    have ht : ((t + 1) % n == a) = false := by rw [hmod]; simp; omega
    rw [hs, ht]
    simp

/-! ## The atoms-to-draw walk and the polygon sweep -/

theorem fusedDrawLoop_asc (n : Nat) :
    ∀ (k a : Nat), 1 ≤ a → a + k ≤ n - 1 →
      fusedDrawLoop (canonRing n) k ⟨a - 1, a⟩ a = List.range' (a + 1) k := by
  intro k
  induction k with
  | zero => intro a _ _; rfl
  | succ k ih =>
    intro a h1 h2
    have hoa : Bond.otherAtom ⟨a, a + 1⟩ a = some (a + 1) := by
      rw [Bond.otherAtom, if_pos rfl]
    rw [fusedDrawLoop, getnb_asc n a h1 (by omega)]
    simp only [hoa]
    rw [show (Bond.mk a (a + 1)) = Bond.mk ((a + 1) - 1) (a + 1) by
      rw [Bond.mk.injEq]; omega]
    rw [ih (a + 1) (by omega) (by omega)]
    rw [List.range'_succ]

theorem fusedDrawLoop_desc (n : Nat) (hn : 3 ≤ n) :
    ∀ (k a : Nat), 1 ≤ a → a < n → k ≤ a - 1 →
      fusedDrawLoop (canonRing n) k ⟨a, (a + 1) % n⟩ a =
        (List.range' (a - k) k).reverse := by
  intro k
  induction k with
  | zero => intro a _ _ _; rfl
  | succ k ih =>
    intro a h1 h2 h3
    have ha2 : 2 ≤ a := by omega
    have hoa : Bond.otherAtom ⟨a - 1, a⟩ a = some (a - 1) := by
      rw [Bond.otherAtom, if_neg (show ¬(a - 1 = a) by omega), if_pos rfl]
    rw [fusedDrawLoop, getnb_desc n a ha2 h2]
    simp only [hoa]
    rw [show (Bond.mk (a - 1) a) = Bond.mk (a - 1) ((a - 1 + 1) % n) by
      rw [Bond.mk.injEq]
      exact ⟨rfl, by rw [Nat.mod_eq_of_lt (by omega)]; omega⟩]
    rw [ih (a - 1) (by omega) (by omega) (by omega)]
    rw [show a - (k + 1) = a - 1 - k by omega]
    rw [show (k + 1) = k + 1 from rfl]
    rw [List.range'_concat]
    rw [List.reverse_append]
    rw [show a - 1 - k + 1 * k = a - 1 by omega]
    rfl

theorem fusedDrawLoop_from1 (n : Nat) (hn : 3 ≤ n) :
    fusedDrawLoop (canonRing n) (n - 2) ⟨0, 1⟩ 1 = List.range' 2 (n - 2) := by
  have h := fusedDrawLoop_asc n (n - 2) 1 (by omega) (by omega)
  rw [show (Bond.mk 0 1) = Bond.mk (1 - 1) 1 from rfl]
  rw [h]

theorem fusedDrawLoop_from0 (n : Nat) (hn : 3 ≤ n) :
    fusedDrawLoop (canonRing n) (n - 2) ⟨0, 1⟩ 0 = (List.range' 2 (n - 2)).reverse := by
  have hoa : Bond.otherAtom ⟨n - 1, 0⟩ 0 = some (n - 1) := by
    rw [Bond.otherAtom, if_neg (show ¬(n - 1 = 0) by omega), if_pos rfl]
  rw [show n - 2 = (n - 3) + 1 by omega, fusedDrawLoop]
  rw [getnb_desc0 n hn]
  simp only [hoa]
  rw [show (Bond.mk (n - 1) 0) = Bond.mk (n - 1) ((n - 1 + 1) % n) by
    rw [Bond.mk.injEq]
    refine ⟨rfl, ?_⟩
    rw [show n - 1 + 1 = n by omega, Nat.mod_self]]
  rw [fusedDrawLoop_desc n hn (n - 3) (n - 1) (by omega) (by omega) (by omega)]
  rw [show n - 1 - (n - 3) = 2 by omega]
  rw [List.range'_concat]
  rw [List.reverse_append]
  rw [show 2 + 1 * (n - 3) = n - 1 by omega]
  rfl

/-- Atoms not in the list keep their coordinate and flag. -/
theorem populate_untouched :
    ∀ (l : List Nat) (c : Vec2) (ang add rad : ℝ) (s : GState) (i : Nat),
      i ∉ l →
      (populatePolygonCorners l c ang add rad s).coord i = s.coord i ∧
      (populatePolygonCorners l c ang add rad s).placed i = s.placed i := by
  intro l
  induction l with
  | nil => intro c ang add rad s i _; exact ⟨rfl, rfl⟩
  | cons a t ih =>
    intro c ang add rad s i hi
    rw [List.mem_cons] at hi
    push_neg at hi
    rw [populatePolygonCorners]
    obtain ⟨h1, h2⟩ := ih c (ang + add) add rad
      (setAtomCoordPlaced s a
        (c.1 + rad * Real.cos (ang + add), c.2 + rad * Real.sin (ang + add))) i hi.2
    rw [h1, h2]
    constructor
    · rw [setAtomCoordPlaced]
      exact Function.update_noteq hi.1 _ _
    · rw [setAtomCoordPlaced]
      exact Function.update_noteq hi.1 _ _

/-- Coordinate and flag of the j-th atom placed by populatePolygonCorners. -/
theorem populate_get :
    ∀ (l : List Nat) (c : Vec2) (ang add rad : ℝ) (s : GState) (j : Nat)
      (hj : j < l.length), l.Nodup →
      (populatePolygonCorners l c ang add rad s).coord l[j] =
        (c.1 + rad * Real.cos (ang + (j + 1 : ℕ) * add),
         c.2 + rad * Real.sin (ang + (j + 1 : ℕ) * add)) ∧
      (populatePolygonCorners l c ang add rad s).placed l[j] = true := by
  intro l
  induction l with
  | nil => intro c ang add rad s j hj; simp at hj
  | cons a t ih =>
    intro c ang add rad s j hj hnd
    rw [List.nodup_cons] at hnd
    rw [populatePolygonCorners]
    match j with
    | 0 =>
      simp only [List.getElem_cons_zero]
      obtain ⟨h1, h2⟩ := populate_untouched t c (ang + add) add rad
        (setAtomCoordPlaced s a
          (c.1 + rad * Real.cos (ang + add), c.2 + rad * Real.sin (ang + add)))
        a hnd.1
      rw [h1, h2, setAtomCoordPlaced]
      constructor
      · simp only [Function.update_same, Prod.mk.injEq]
        norm_num
      · simp only [Function.update_same]
    | j + 1 =>
      simp only [List.getElem_cons_succ]
      obtain ⟨h1, h2⟩ := ih c (ang + add) add rad
        (setAtomCoordPlaced s a
          (c.1 + rad * Real.cos (ang + add), c.2 + rad * Real.sin (ang + add)))
        j (by simpa using hj) hnd.2
      rw [h1, h2]
      refine ⟨?_, rfl⟩
      have harith : ang + add + (j + 1 : ℕ) * add = ang + ((j + 1 : ℕ) + 1) * add := by
        push_cast
        ring
      rw [harith]
      norm_num

/-! ## Trigonometric core of the sweep-side argument -/

theorem sin_pi_div_pos (n : Nat) (hn : 3 ≤ n) : (0:ℝ) < Real.sin (Real.pi / n) := by
  have hn' : (3:ℝ) ≤ n := by exact_mod_cast hn
  have hpi := Real.pi_pos
  apply Real.sin_pos_of_pos_of_lt_pi
  · positivity
  · rw [div_lt_iff₀ (by linarith)]
    nlinarith [mul_le_mul_of_nonneg_left hn' hpi.le]

theorem cos_pi_div_pos (n : Nat) (hn : 3 ≤ n) : (0:ℝ) < Real.cos (Real.pi / n) := by
  have hn' : (3:ℝ) ≤ n := by exact_mod_cast hn
  have hpi := Real.pi_pos
  apply Real.cos_pos_of_mem_Ioo
  constructor
  · have : (0:ℝ) < Real.pi / n := by positivity
    linarith
  · rw [div_lt_iff₀ (by linarith)]
    nlinarith

theorem cos_odd_lt (k n : Nat) (hk : 1 ≤ k) (hkn : k ≤ n - 2) (hn : 3 ≤ n) :
    Real.cos ((2*(k:ℝ)+1) * Real.pi / n) < Real.cos (Real.pi / n) := by
  have hn' : (3:ℝ) ≤ n := by exact_mod_cast hn
  have hk' : (1:ℝ) ≤ k := by exact_mod_cast hk
  have hkn2 : (k:ℝ) + 2 ≤ (n:ℝ) := by exact_mod_cast (by omega : k + 2 ≤ n)
  have hpi := Real.pi_pos
  have hnpos : (0:ℝ) < n := by linarith
  set x := (2*(k:ℝ)+1) * Real.pi / n with hx
  have hxlo : Real.pi / n < x := by
    rw [hx, div_lt_div_iff₀ hnpos hnpos]
    nlinarith [mul_le_mul_of_nonneg_right hk' (mul_pos hpi hnpos).le]
  have hxhi : x ≤ 2*Real.pi - 3*Real.pi/n := by
    rw [hx, div_le_iff₀ hnpos, sub_mul, div_mul_cancel₀ _ (ne_of_gt hnpos)]
    nlinarith [mul_nonneg hpi.le (show (0:ℝ) ≤ (n:ℝ) - (k:ℝ) - 2 by linarith)]
  have h4 : Real.pi / n < 3 * Real.pi / n := by
    rw [div_lt_div_iff₀ hnpos hnpos]
    nlinarith [mul_pos hpi hnpos]
  by_cases hxp : x ≤ Real.pi
  · exact Real.cos_lt_cos_of_nonneg_of_le_pi (by positivity) hxp hxlo
  · push_neg at hxp
    have hcx : Real.cos x = Real.cos (2*Real.pi - x) := (Real.cos_two_pi_sub x).symm
    rw [hcx]
    exact Real.cos_lt_cos_of_nonneg_of_le_pi (by positivity) (by linarith) (by linarith)

theorem fused_side_core (n k : Nat) (hn : 3 ≤ n) (hk1 : 1 ≤ k) (hk2 : k ≤ n - 2)
    (bl r p : ℝ) (hbl : 0 < bl)
    (hr : r = bl / (2 * Real.sin (Real.pi / n)))
    (hp : p = r * Real.cos (Real.pi / n))
    (ex ey ux uy D : ℝ)
    (hne : ex^2 + ey^2 = bl^2) (hnu : ux^2 + uy^2 = 1) (hue : ux*ex + uy*ey = 0)
    (hD : D = ex*uy - ey*ux)
    (S1 S2 θ0 : ℝ)
    (hcos0 : Real.cos θ0 = S1 / r) (hsin0 : Real.sin θ0 = S2 / r)
    (dir : ℝ) (hdir : dir = 1 ∨ dir = -1)
    (hgood : (S1 = ex/2 - p*ux ∧ S2 = ey/2 - p*uy ∧ dir * D = bl) ∨
             (S1 = -(ex/2) - p*ux ∧ S2 = -(ey/2) - p*uy ∧ dir * D = -bl)) :
    0 < D * (p * D + r * (ex * Real.sin (θ0 + (k:ℝ) * (2 * Real.pi / n * dir))
                        - ey * Real.cos (θ0 + (k:ℝ) * (2 * Real.pi / n * dir)))) := by
  have hsin := sin_pi_div_pos n hn
  have hcosn := cos_pi_div_pos n hn
  have hrpos : 0 < r := by rw [hr]; positivity
  have hb : bl = 2 * r * Real.sin (Real.pi / n) := by
    rw [hr]; field_simp; ring
  have hD2 : D^2 = bl^2 := by
    have key : (ex*uy - ey*ux)^2 =
        (ex^2 + ey^2) * (ux^2 + uy^2) - (ux*ex + uy*ey)^2 := by ring
    rw [hD, key, hne, hnu, hue]
    ring
  set β := (k:ℝ) * (2 * Real.pi / n) with hβ
  have hsink : Real.sin (θ0 + (k:ℝ) * (2 * Real.pi / n * dir)) =
      Real.sin θ0 * Real.cos β + dir * (Real.cos θ0 * Real.sin β) := by
    rcases hdir with h | h <;> subst h
    · rw [show θ0 + (k:ℝ) * (2 * Real.pi / n * 1) = θ0 + β by rw [hβ]; ring,
        Real.sin_add]
      ring
    · rw [show θ0 + (k:ℝ) * (2 * Real.pi / n * (-1)) = θ0 - β by rw [hβ]; ring,
        Real.sin_sub]
      ring
  have hcosk : Real.cos (θ0 + (k:ℝ) * (2 * Real.pi / n * dir)) =
      Real.cos θ0 * Real.cos β - dir * (Real.sin θ0 * Real.sin β) := by
    rcases hdir with h | h <;> subst h
    · rw [show θ0 + (k:ℝ) * (2 * Real.pi / n * 1) = θ0 + β by rw [hβ]; ring,
        Real.cos_add]
      ring
    · rw [show θ0 + (k:ℝ) * (2 * Real.pi / n * (-1)) = θ0 - β by rw [hβ]; ring,
        Real.cos_sub]
      ring
  have hfinal : D * (p * D + r * (ex * Real.sin (θ0 + (k:ℝ) * (2 * Real.pi / n * dir))
      - ey * Real.cos (θ0 + (k:ℝ) * (2 * Real.pi / n * dir)))) =
      bl^2 * r * (Real.cos (Real.pi / n) - Real.cos (Real.pi / n + β)) := by
    rcases hgood with ⟨hS1, hS2, hdD⟩ | ⟨hS1, hS2, hdD⟩
    · have hcross : ex * S2 - ey * S1 = -(p*D) := by
        rw [hS1, hS2, hD]; ring
      have hdot : ex * S1 + ey * S2 = bl^2/2 := by
        rw [hS1, hS2]
        linear_combination (1/2) * hne - p * hue
      rw [hsink, hcosk, hsin0, hcos0, Real.cos_add]
      have hexp : D * (p * D + r * (ex * (S2/r * Real.cos β + dir * (S1/r * Real.sin β))
          - ey * (S1/r * Real.cos β - dir * (S2/r * Real.sin β)))) =
          p * D^2 * (1 - Real.cos β) + (dir * D) * Real.sin β * (ex * S1 + ey * S2)
            + D * Real.cos β * (ex * S2 - ey * S1) + p * D^2 * Real.cos β := by
        field_simp
        ring
      rw [hexp, hdot, hdD, hcross]
      linear_combination (1 - Real.cos β) * p * hD2 + (1 - Real.cos β) * bl^2 * hp +
        (Real.sin β * bl^2/2) * hb
    · have hcross : ex * S2 - ey * S1 = -(p*D) := by
        rw [hS1, hS2, hD]; ring
      have hdot : ex * S1 + ey * S2 = -(bl^2/2) := by
        rw [hS1, hS2]
        linear_combination (-1/2) * hne - p * hue
      rw [hsink, hcosk, hsin0, hcos0, Real.cos_add]
      have hexp : D * (p * D + r * (ex * (S2/r * Real.cos β + dir * (S1/r * Real.sin β))
          - ey * (S1/r * Real.cos β - dir * (S2/r * Real.sin β)))) =
          p * D^2 * (1 - Real.cos β) + (dir * D) * Real.sin β * (ex * S1 + ey * S2)
            + D * Real.cos β * (ex * S2 - ey * S1) + p * D^2 * Real.cos β := by
        field_simp
        ring
      rw [hexp, hdot, hdD, hcross]
      linear_combination (1 - Real.cos β) * p * hD2 + (1 - Real.cos β) * bl^2 * hp +
        (Real.sin β * bl^2/2) * hb
  rw [hfinal]
  have hang : Real.pi / n + β = (2*(k:ℝ)+1) * Real.pi / n := by
    rw [hβ]; field_simp; ring
  rw [hang]
  have := cos_odd_lt k n hk1 hk2 hn
  have hbl2 : (0:ℝ) < bl^2 := by positivity
  nlinarith [mul_pos (mul_pos hbl2 hrpos)
    (sub_pos.mpr (cos_odd_lt k n hk1 hk2 hn))]

/-! ## Shared tail of the fused-ring placement argument -/

theorem fused_tail (n : Nat) (hn : 3 ≤ n) (bl r p : ℝ) (hbl : 0 < bl)
    (hr : r = bl / (2 * Real.sin (Real.pi / n)))
    (hp : p = r * Real.cos (Real.pi / n))
    (ex ey ux uy D : ℝ)
    (hne : ex^2 + ey^2 = bl^2) (hnu : ux^2 + uy^2 = 1) (hue : ux*ex + uy*ey = 0)
    (hD : D = ex*uy - ey*ux)
    (P1 C : Vec2) (hC1 : C.1 = P1.1 + ex/2 + p*ux) (hC2 : C.2 = P1.2 + ey/2 + p*uy)
    (s : GState) (l : List Nat) (hnd : l.Nodup)
    (hmem0 : (0:Nat) ∉ l) (hmem1 : (1:Nat) ∉ l)
    (hidx : ∀ i, 2 ≤ i → i < n →
      ∃ j, ∃ hj : j < l.length, l[j] = i ∧ 1 ≤ j + 1 ∧ j + 1 ≤ n - 2)
    (dir : ℝ) (hdir : dir = 1 ∨ dir = -1)
    (S1 S2 θ0 : ℝ) (hcos0 : Real.cos θ0 = S1 / r) (hsin0 : Real.sin θ0 = S2 / r)
    (hgood : (S1 = ex/2 - p*ux ∧ S2 = ey/2 - p*uy ∧ dir * D = bl) ∨
             (S1 = -(ex/2) - p*ux ∧ S2 = -(ey/2) - p*uy ∧ dir * D = -bl)) :
    ((populatePolygonCorners l C θ0 (2 * Real.pi / n * dir) r s).coord 0 = s.coord 0 ∧
     (populatePolygonCorners l C θ0 (2 * Real.pi / n * dir) r s).coord 1 = s.coord 1) ∧
    ∀ i, 2 ≤ i → i < n →
      (populatePolygonCorners l C θ0 (2 * Real.pi / n * dir) r s).placed i = true ∧
      0 < D * (ex * (((populatePolygonCorners l C θ0 (2 * Real.pi / n * dir) r s).coord i).2 - P1.2)
             - ey * (((populatePolygonCorners l C θ0 (2 * Real.pi / n * dir) r s).coord i).1 - P1.1)) := by
  constructor
  · exact ⟨(populate_untouched l C θ0 (2 * Real.pi / n * dir) r s 0 hmem0).1,
           (populate_untouched l C θ0 (2 * Real.pi / n * dir) r s 1 hmem1).1⟩
  · intro i hi2 hin
    obtain ⟨j, hj, hlj, hk1, hk2⟩ := hidx i hi2 hin
    obtain ⟨hco, hpl⟩ := populate_get l C θ0 (2 * Real.pi / n * dir) r s j hj hnd
    rw [hlj] at hco hpl
    refine ⟨hpl, ?_⟩
    rw [hco]
    have hkey : D * (ex * ((C.2 + r * Real.sin (θ0 + (j + 1 : ℕ) * (2 * Real.pi / n * dir))) - P1.2)
        - ey * ((C.1 + r * Real.cos (θ0 + (j + 1 : ℕ) * (2 * Real.pi / n * dir))) - P1.1)) =
        D * (p * D + r * (ex * Real.sin (θ0 + ((j + 1 : ℕ) : ℝ) * (2 * Real.pi / n * dir))
             - ey * Real.cos (θ0 + ((j + 1 : ℕ) : ℝ) * (2 * Real.pi / n * dir)))) := by
      rw [hC1, hC2, hD]
      ring
    rw [hkey]
    exact fused_side_core n (j + 1) hn hk1 hk2 bl r p hbl hr hp ex ey ux uy D
      hne hnu hue hD S1 S2 θ0 hcos0 hsin0 dir hdir hgood

theorem getAngle_cos_sin (x y rr : ℝ) (hrr : 0 < rr) (hxy : x^2 + y^2 = rr^2) :
    Real.cos (getAngle x y) = x / rr ∧ Real.sin (getAngle x y) = y / rr := by
  have habs : Complex.abs ⟨x, y⟩ = rr := by
    rw [Complex.abs_apply, Complex.normSq_mk,
      show x*x + y*y = rr^2 by linear_combination hxy]
    exact Real.sqrt_sq hrr.le
  have hz : (⟨x, y⟩ : ℂ) ≠ 0 := by
    intro h
    rw [h, map_zero] at habs
    linarith
  constructor
  · rw [getAngle, Complex.cos_arg hz, habs]
  · rw [getAngle, Complex.sin_arg, habs]

theorem canon_atoms_len (n : Nat) : (canonRing n).atoms.length = n := by
  simp [canonRing]

theorem canon_bonds_len (n : Nat) : (canonRing n).bonds.length = n := by
  simp [canonRing]

theorem lenV_sq (v : Vec2) : lenV v ^ 2 = normSqV v := by
  rw [lenV]
  exact Real.sq_sqrt (by unfold normSqV; positivity)

theorem asc_list_facts (n : Nat) (hn : 3 ≤ n) :
    (List.range' 2 (n - 2)).Nodup ∧ (0:Nat) ∉ List.range' 2 (n - 2) ∧
    (1:Nat) ∉ List.range' 2 (n - 2) ∧
    (∀ i, 2 ≤ i → i < n → ∃ j, ∃ hj : j < (List.range' 2 (n - 2)).length,
      (List.range' 2 (n - 2))[j] = i ∧ 1 ≤ j + 1 ∧ j + 1 ≤ n - 2) := by
  refine ⟨List.nodup_range' 2 (n - 2), ?_, ?_, ?_⟩
  · rw [List.mem_range'_1]; omega
  · rw [List.mem_range'_1]; omega
  · intro i hi2 hin
    refine ⟨i - 2, by rw [List.length_range']; omega, ?_, by omega, by omega⟩
    rw [List.getElem_range']
    omega

theorem desc_list_facts (n : Nat) (hn : 3 ≤ n) :
    ((List.range' 2 (n - 2)).reverse).Nodup ∧
    (0:Nat) ∉ (List.range' 2 (n - 2)).reverse ∧
    (1:Nat) ∉ (List.range' 2 (n - 2)).reverse ∧
    (∀ i, 2 ≤ i → i < n → ∃ j, ∃ hj : j < ((List.range' 2 (n - 2)).reverse).length,
      ((List.range' 2 (n - 2)).reverse)[j] = i ∧ 1 ≤ j + 1 ∧ j + 1 ≤ n - 2) := by
  refine ⟨List.nodup_reverse.mpr (List.nodup_range' 2 (n - 2)), ?_, ?_, ?_⟩
  · rw [List.mem_reverse, List.mem_range'_1]; omega
  · rw [List.mem_reverse, List.mem_range'_1]; omega
  · intro i hi2 hin
    have hlen : ((List.range' 2 (n - 2)).reverse).length = n - 2 := by
      rw [List.length_reverse, List.length_range']
    refine ⟨n - 1 - i, by omega, ?_, by omega, by omega⟩
    rw [List.getElem_reverse]
    rw [List.getElem_range']
    rw [List.length_range']
    omega

set_option maxHeartbeats 3200000 in
/-- Claim C7: for a fused attachment of a canonical n-ring sharing atoms 0 and 1
(one bond) with already placed geometry — the two shared atoms a bond length
apart and the ring-center vector cv nonzero and perpendicular to the shared
bond — placeFusedRing puts the new ring's center at the midpoint of the two
shared atoms offset along cv by sqrt(r² − (bl/2)²), with r = bl/(2·sin(π/n))
the native radius of an n-gon of side bl; it leaves the two shared atoms'
coordinates untouched; and it places each of the n − 2 unshared atoms,
flagging it placed, strictly on the side of the shared bond's line opposite
the point midpoint − cv (the side away from the already placed ring, which
lies in direction −cv). -/
theorem claim7_fused_ring_placement (n : Nat) (hn : 3 ≤ n) (bl : ℝ) (hbl : 0 < bl)
    (P1 P2 cv : Vec2) (s : GState)
    (hP1 : s.coord 0 = P1) (hP2 : s.coord 1 = P2)
    (hdist : lenV (subV P2 P1) = bl)
    (hperp : dotV cv (subV P2 P1) = 0)
    (hcv : cv ≠ ((0:ℝ), (0:ℝ))) :
    (fusedRingCenter (midV P1 P2) cv (getNativeRingRadius n bl) bl =
       addV (midV P1 P2)
         (scaleV (Real.sqrt ((getNativeRingRadius n bl)^2 - (bl/2)^2) / lenV cv) cv) ∧
     lenV (subV (fusedRingCenter (midV P1 P2) cv (getNativeRingRadius n bl) bl)
         (midV P1 P2)) =
       Real.sqrt ((getNativeRingRadius n bl)^2 - (bl/2)^2)) ∧
    ((placeFusedRing (canonRing n) ⟨[0, 1], [⟨0, 1⟩]⟩ (midV P1 P2) cv bl s).coord 0 = P1 ∧
     (placeFusedRing (canonRing n) ⟨[0, 1], [⟨0, 1⟩]⟩ (midV P1 P2) cv bl s).coord 1 = P2) ∧
    (∀ i, 2 ≤ i → i < n →
      (placeFusedRing (canonRing n) ⟨[0, 1], [⟨0, 1⟩]⟩ (midV P1 P2) cv bl s).placed i = true ∧
      crossV (subV P2 P1)
          (subV ((placeFusedRing (canonRing n) ⟨[0, 1], [⟨0, 1⟩]⟩ (midV P1 P2) cv bl s).coord i) P1) *
        crossV (subV P2 P1) (subV (subV (midV P1 P2) cv) P1) < 0) := by
  have hsin := sin_pi_div_pos n hn
  have hcosn := cos_pi_div_pos n hn
  have hpi := Real.pi_pos
  have hn' : (3:ℝ) ≤ n := by exact_mod_cast hn
  set r := getNativeRingRadius n bl with hrset
  have hr : r = bl / (2 * Real.sin (Real.pi / n)) := rfl
  have hrpos : 0 < r := by rw [hr]; positivity
  have hb : bl = 2 * r * Real.sin (Real.pi / n) := by
    rw [hr]; field_simp; ring
  set p := Real.sqrt (r^2 - (bl/2)^2) with hpset
  have hpval : r^2 - (bl/2)^2 = (r * Real.cos (Real.pi / n))^2 := by
    linear_combination (-(r^2)) * (Real.sin_sq_add_cos_sq (Real.pi / n)) +
      (-(bl + 2*r*Real.sin (Real.pi / n))/4) * hb
  have hp : p = r * Real.cos (Real.pi / n) := by
    rw [hpset, hpval]; exact Real.sqrt_sq (by positivity)
  have hppos : 0 < p := by rw [hp]; positivity
  have hLpos : 0 < lenV cv := by
    rw [lenV]
    apply Real.sqrt_pos.mpr
    have hne0 : cv.1 ≠ 0 ∨ cv.2 ≠ 0 := by
      by_contra hcon
      push_neg at hcon
      exact hcv (Prod.ext hcon.1 hcon.2)
    unfold normSqV
    rcases hne0 with h | h
    · positivity
    · positivity
  have hL2 : lenV cv ^ 2 = cv.1^2 + cv.2^2 := lenV_sq cv
  set ux := cv.1 / lenV cv with huxset
  set uy := cv.2 / lenV cv with huyset
  have hnu : ux^2 + uy^2 = 1 := by
    rw [huxset, huyset]
    field_simp
    linarith [hL2]
  have hcv1 : cv.1 = lenV cv * ux := by
    rw [huxset]; field_simp
  have hcv2 : cv.2 = lenV cv * uy := by
    rw [huyset]; field_simp
  have hne : (P2.1 - P1.1)^2 + (P2.2 - P1.2)^2 = bl^2 := by
    have h := lenV_sq (subV P2 P1)
    rw [hdist] at h
    exact h.symm
  have hue : ux*(P2.1 - P1.1) + uy*(P2.2 - P1.2) = 0 := by
    have hperp' : cv.1*(P2.1 - P1.1) + cv.2*(P2.2 - P1.2) = 0 := hperp
    rw [huxset, huyset]
    field_simp
    linarith [hperp']
  set D := (P2.1 - P1.1)*uy - (P2.2 - P1.2)*ux with hDset
  have hC1 : (fusedRingCenter (midV P1 P2) cv r bl).1 =
      P1.1 + (P2.1 - P1.1)/2 + p*ux := by
    simp only [fusedRingCenter, addV, scaleV, normalizeV, midV]
    rw [← hpset, ← huxset]
    ring
  have hC2 : (fusedRingCenter (midV P1 P2) cv r bl).2 =
      P1.2 + (P2.2 - P1.2)/2 + p*uy := by
    simp only [fusedRingCenter, addV, scaleV, normalizeV, midV]
    rw [← hpset, ← huyset]
    ring
  have hr2 : bl^2/4 + p^2 = r^2 := by
    linear_combination (p + r*Real.cos (Real.pi / n)) * hp +
      ((bl + 2*r*Real.sin (Real.pi / n))/4) * hb +
      r^2 * (Real.sin_sq_add_cos_sq (Real.pi / n))
  have hu1c : subV P1 (fusedRingCenter (midV P1 P2) cv r bl) =
      (-((P2.1 - P1.1)/2) - p*ux, -((P2.2 - P1.2)/2) - p*uy) := by
    simp only [subV, Prod.mk.injEq]
    constructor
    · rw [hC1]; ring
    · rw [hC2]; ring
  have hu2c : subV P2 (fusedRingCenter (midV P1 P2) cv r bl) =
      ((P2.1 - P1.1)/2 - p*ux, (P2.2 - P1.2)/2 - p*uy) := by
    simp only [subV, Prod.mk.injEq]
    constructor
    · rw [hC1]; ring
    · rw [hC2]; ring
  have hlenu1 : lenV (-((P2.1 - P1.1)/2) - p*ux, -((P2.2 - P1.2)/2) - p*uy) = r := by
    rw [lenV]
    have hns : normSqV (-((P2.1 - P1.1)/2) - p*ux, -((P2.2 - P1.2)/2) - p*uy) = r^2 := by
      show (-((P2.1 - P1.1)/2) - p*ux)^2 + (-((P2.2 - P1.2)/2) - p*uy)^2 = r^2
      linear_combination (1/4)*hne + p^2*hnu + p*hue + hr2
    rw [hns, Real.sqrt_sq hrpos.le]
  have hlenu2 : lenV ((P2.1 - P1.1)/2 - p*ux, (P2.2 - P1.2)/2 - p*uy) = r := by
    rw [lenV]
    have hns : normSqV ((P2.1 - P1.1)/2 - p*ux, (P2.2 - P1.2)/2 - p*uy) = r^2 := by
      show ((P2.1 - P1.1)/2 - p*ux)^2 + ((P2.2 - P1.2)/2 - p*uy)^2 = r^2
      linear_combination (1/4)*hne + p^2*hnu - p*hue + hr2
    rw [hns, Real.sqrt_sq hrpos.le]
  have hdotu : dotV (-((P2.1 - P1.1)/2) - p*ux, -((P2.2 - P1.2)/2) - p*uy)
      ((P2.1 - P1.1)/2 - p*ux, (P2.2 - P1.2)/2 - p*uy) =
      r^2 * Real.cos (2*(Real.pi/(n:ℝ))) := by
    rw [Real.cos_two_mul']
    show (-((P2.1 - P1.1)/2) - p*ux) * ((P2.1 - P1.1)/2 - p*ux) +
        (-((P2.2 - P1.2)/2) - p*uy) * ((P2.2 - P1.2)/2 - p*uy) =
        r^2 * (Real.cos (Real.pi/(n:ℝ))^2 - Real.sin (Real.pi/(n:ℝ))^2)
    linear_combination p^2*hnu - (1/4)*hne + (p + r*Real.cos (Real.pi/(n:ℝ)))*hp -
      ((bl + 2*r*Real.sin (Real.pi/(n:ℝ)))/4)*hb
  have hocc : vecAngleBetween (subV P1 (fusedRingCenter (midV P1 P2) cv r bl))
      (subV P2 (fusedRingCenter (midV P1 P2) cv r bl)) = 2*(Real.pi/(n:ℝ)) := by
    rw [vecAngleBetween, hu1c, hu2c, hlenu1, hlenu2, hdotu]
    rw [show r^2 * Real.cos (2*(Real.pi/(n:ℝ))) / (r*r) = Real.cos (2*(Real.pi/(n:ℝ))) by
      field_simp; ring]
    refine Real.arccos_cos (by positivity) ?_
    rw [show (2:ℝ)*(Real.pi/(n:ℝ)) = 2*Real.pi/(n:ℝ) by ring,
      div_le_iff₀ (by positivity : (0:ℝ) < (n:ℝ))]
    linarith [mul_nonneg (by linarith : (0:ℝ) ≤ (n:ℝ) - 3) hpi.le, hpi.le]
  have hnR1 : ((n:ℝ) - 1) ≠ 0 := ne_of_gt (by linarith : (0:ℝ) < (n:ℝ) - 1)
  have hnR0 : ((n:ℝ)) ≠ 0 := ne_of_gt (by linarith : (0:ℝ) < (n:ℝ))
  have haddA : (2 * Real.pi - 2*(Real.pi/(n:ℝ))) / ((n:ℝ) - 1) = 2*Real.pi/(n:ℝ) := by
    field_simp
    ring
  have hreduce : ∀ (sa : Nat) (dir : ℝ),
      (((if P1.1 - P2.1 = 0 then
          ((if P1.2 > P2.2 then (0:Nat) else 1),
           (if (fusedRingCenter (midV P1 P2) cv r bl).1 < P1.1 then (1:ℝ) else -1))
        else
          ((if P1.1 > P2.1 then (0:Nat) else 1),
           (if (fusedRingCenter (midV P1 P2) cv r bl).2 - P1.2 >
               ((fusedRingCenter (midV P1 P2) cv r bl).1 - P1.1) * (P1.2 - P2.2) /
                 (P1.1 - P2.1)
            then (1:ℝ) else -1))) : Nat × ℝ) = (sa, dir)) →
      placeFusedRing (canonRing n) ⟨[0, 1], [⟨0, 1⟩]⟩ (midV P1 P2) cv bl s =
        populatePolygonCorners (fusedDrawLoop (canonRing n) (n - 2) ⟨0, 1⟩ sa)
          (fusedRingCenter (midV P1 P2) cv r bl)
          (getAngle ((s.coord sa).1 - (fusedRingCenter (midV P1 P2) cv r bl).1)
                    ((s.coord sa).2 - (fusedRingCenter (midV P1 P2) cv r bl).2))
          (2*Real.pi/(n:ℝ) * dir) r s := by
    intro sa dir hsd
    rw [placeFusedRing]
    simp only [canon_atoms_len, canon_bonds_len]
    rw [← hrset]
    rw [hP1, hP2]
    rw [hocc]
    rw [haddA]
    rw [hsd]
  have hconc1a : fusedRingCenter (midV P1 P2) cv r bl =
      addV (midV P1 P2) (scaleV (p / lenV cv) cv) := by
    simp only [fusedRingCenter, addV, scaleV, normalizeV, midV, Prod.mk.injEq]
    rw [← hpset]
    constructor <;> ring
  have hsubC : subV (fusedRingCenter (midV P1 P2) cv r bl) (midV P1 P2) =
      (p*ux, p*uy) := by
    simp only [fusedRingCenter, addV, scaleV, normalizeV, midV, subV, Prod.mk.injEq]
    rw [← hpset, ← huxset, ← huyset]
    constructor <;> ring
  have hconc1b : lenV (subV (fusedRingCenter (midV P1 P2) cv r bl) (midV P1 P2)) = p := by
    rw [hsubC, lenV]
    have hns : normSqV (p*ux, p*uy) = p^2 := by
      show (p*ux)^2 + (p*uy)^2 = p^2
      linear_combination p^2 * hnu
    rw [hns, Real.sqrt_sq hppos.le]
  have hcrossO : crossV (subV P2 P1) (subV (subV (midV P1 P2) cv) P1) =
      -(lenV cv * D) := by
    show (P2.1 - P1.1) * ((P1.2 + P2.2)/2 - cv.2 - P1.2) -
        (P2.2 - P1.2) * ((P1.1 + P2.1)/2 - cv.1 - P1.1) = -(lenV cv * D)
    rw [hcv1, hcv2, hDset]
    ring
  have hsideconv : ∀ Q : Vec2,
      0 < D * ((P2.1 - P1.1) * (Q.2 - P1.2) - (P2.2 - P1.2) * (Q.1 - P1.1)) →
      crossV (subV P2 P1) (subV Q P1) * (-(lenV cv * D)) < 0 := by
    intro Q hQ
    have h1 : 0 < lenV cv *
        (D * ((P2.1 - P1.1) * (Q.2 - P1.2) - (P2.2 - P1.2) * (Q.1 - P1.1))) :=
      mul_pos hLpos hQ
    show ((P2.1 - P1.1) * (Q.2 - P1.2) - (P2.2 - P1.2) * (Q.1 - P1.1)) *
        (-(lenV cv * D)) < 0
    rw [show ((P2.1 - P1.1) * (Q.2 - P1.2) - (P2.2 - P1.2) * (Q.1 - P1.1)) *
        (-(lenV cv * D)) =
        -(lenV cv * (D * ((P2.1 - P1.1) * (Q.2 - P1.2) -
          (P2.2 - P1.2) * (Q.1 - P1.1)))) by ring]
    exact neg_lt_zero.mpr h1
  have hfinish : ∀ (sa : Nat) (dir : ℝ), (dir = 1 ∨ dir = -1) →
      ((sa = 1 ∧ dir * D = bl) ∨ (sa = 0 ∧ dir * D = -bl)) →
      placeFusedRing (canonRing n) ⟨[0, 1], [⟨0, 1⟩]⟩ (midV P1 P2) cv bl s =
        populatePolygonCorners (fusedDrawLoop (canonRing n) (n - 2) ⟨0, 1⟩ sa)
          (fusedRingCenter (midV P1 P2) cv r bl)
          (getAngle ((s.coord sa).1 - (fusedRingCenter (midV P1 P2) cv r bl).1)
                    ((s.coord sa).2 - (fusedRingCenter (midV P1 P2) cv r bl).2))
          (2*Real.pi/(n:ℝ) * dir) r s →
      ((placeFusedRing (canonRing n) ⟨[0, 1], [⟨0, 1⟩]⟩ (midV P1 P2) cv bl s).coord 0 = P1 ∧
       (placeFusedRing (canonRing n) ⟨[0, 1], [⟨0, 1⟩]⟩ (midV P1 P2) cv bl s).coord 1 = P2) ∧
      (∀ i, 2 ≤ i → i < n →
        (placeFusedRing (canonRing n) ⟨[0, 1], [⟨0, 1⟩]⟩ (midV P1 P2) cv bl s).placed i = true ∧
        crossV (subV P2 P1)
            (subV ((placeFusedRing (canonRing n) ⟨[0, 1], [⟨0, 1⟩]⟩ (midV P1 P2) cv bl s).coord i) P1) *
          crossV (subV P2 P1) (subV (subV (midV P1 P2) cv) P1) < 0) := by
    intro sa dir hdir hsadD hEq
    rcases hsadD with ⟨hsa, hdD⟩ | ⟨hsa, hdD⟩
    · subst hsa
      rw [fusedDrawLoop_from1 n hn] at hEq
      rw [hP2] at hEq
      obtain ⟨hnd, h0m, h1m, hidx⟩ := asc_list_facts n hn
      have hS1 : P2.1 - (fusedRingCenter (midV P1 P2) cv r bl).1 =
          (P2.1 - P1.1)/2 - p*ux := by
        rw [hC1]; ring
      have hS2 : P2.2 - (fusedRingCenter (midV P1 P2) cv r bl).2 =
          (P2.2 - P1.2)/2 - p*uy := by
        rw [hC2]; ring
      have hsq : (P2.1 - (fusedRingCenter (midV P1 P2) cv r bl).1)^2 +
          (P2.2 - (fusedRingCenter (midV P1 P2) cv r bl).2)^2 = r^2 := by
        rw [hS1, hS2]
        linear_combination (1/4)*hne + p^2*hnu - p*hue + hr2
      obtain ⟨hc0, hs0⟩ := getAngle_cos_sin
        (P2.1 - (fusedRingCenter (midV P1 P2) cv r bl).1)
        (P2.2 - (fusedRingCenter (midV P1 P2) cv r bl).2) r hrpos hsq
      have htail := fused_tail n hn bl r p hbl hr hp
        (P2.1 - P1.1) (P2.2 - P1.2) ux uy D hne hnu hue hDset
        P1 (fusedRingCenter (midV P1 P2) cv r bl) hC1 hC2 s
        (List.range' 2 (n - 2)) hnd h0m h1m hidx dir hdir
        (P2.1 - (fusedRingCenter (midV P1 P2) cv r bl).1)
        (P2.2 - (fusedRingCenter (midV P1 P2) cv r bl).2)
        (getAngle (P2.1 - (fusedRingCenter (midV P1 P2) cv r bl).1)
                  (P2.2 - (fusedRingCenter (midV P1 P2) cv r bl).2))
        hc0 hs0 (Or.inl ⟨hS1, hS2, hdD⟩)
      constructor
      · constructor
        · rw [hEq, htail.1.1]; exact hP1
        · rw [hEq, htail.1.2]; exact hP2
      · intro i hi2 hin
        obtain ⟨hpl, hineq⟩ := htail.2 i hi2 hin
        constructor
        · rw [hEq]; exact hpl
        · rw [hEq, hcrossO]
          exact hsideconv _ hineq
    · subst hsa
      rw [fusedDrawLoop_from0 n hn] at hEq
      rw [hP1] at hEq
      obtain ⟨hnd, h0m, h1m, hidx⟩ := desc_list_facts n hn
      have hS1 : P1.1 - (fusedRingCenter (midV P1 P2) cv r bl).1 =
          -((P2.1 - P1.1)/2) - p*ux := by
        rw [hC1]; ring
      have hS2 : P1.2 - (fusedRingCenter (midV P1 P2) cv r bl).2 =
          -((P2.2 - P1.2)/2) - p*uy := by
        rw [hC2]; ring
      have hsq : (P1.1 - (fusedRingCenter (midV P1 P2) cv r bl).1)^2 +
          (P1.2 - (fusedRingCenter (midV P1 P2) cv r bl).2)^2 = r^2 := by
        rw [hS1, hS2]
        linear_combination (1/4)*hne + p^2*hnu + p*hue + hr2
      obtain ⟨hc0, hs0⟩ := getAngle_cos_sin
        (P1.1 - (fusedRingCenter (midV P1 P2) cv r bl).1)
        (P1.2 - (fusedRingCenter (midV P1 P2) cv r bl).2) r hrpos hsq
      have htail := fused_tail n hn bl r p hbl hr hp
        (P2.1 - P1.1) (P2.2 - P1.2) ux uy D hne hnu hue hDset
        P1 (fusedRingCenter (midV P1 P2) cv r bl) hC1 hC2 s
        ((List.range' 2 (n - 2)).reverse) hnd h0m h1m hidx dir hdir
        (P1.1 - (fusedRingCenter (midV P1 P2) cv r bl).1)
        (P1.2 - (fusedRingCenter (midV P1 P2) cv r bl).2)
        (getAngle (P1.1 - (fusedRingCenter (midV P1 P2) cv r bl).1)
                  (P1.2 - (fusedRingCenter (midV P1 P2) cv r bl).2))
        hc0 hs0 (Or.inr ⟨hS1, hS2, hdD⟩)
      constructor
      · constructor
        · rw [hEq, htail.1.1]; exact hP1
        · rw [hEq, htail.1.2]; exact hP2
      · intro i hi2 hin
        obtain ⟨hpl, hineq⟩ := htail.2 i hi2 hin
        constructor
        · rw [hEq]; exact hpl
        · rw [hEq, hcrossO]
          exact hsideconv _ hineq
  refine ⟨⟨hconc1a, hconc1b⟩, ?_⟩
  by_cases hx : P1.1 - P2.1 = 0
  · have hex0 : P2.1 - P1.1 = 0 := by linarith
    have hey2 : (P2.2 - P1.2)^2 = bl^2 := by
      linear_combination hne - (P2.1 - P1.1) * hex0
    have heyne : P2.2 - P1.2 ≠ 0 := by
      intro h0
      have h := hey2
      rw [h0] at h
      have h2 : bl^2 = 0 := by rw [← h]; norm_num
      have h3 : (0:ℝ) < bl^2 := by positivity
      linarith
    have huy0 : uy = 0 := by
      have h := hue
      rw [hex0] at h
      have h2 : uy * (P2.2 - P1.2) = 0 := by linarith
      rcases mul_eq_zero.mp h2 with h3 | h3
      · exact h3
      · exact absurd h3 heyne
    have hux1 : ux = 1 ∨ ux = -1 := by
      have h := hnu
      rw [huy0] at h
      have hfac : (ux - 1) * (ux + 1) = 0 := by linear_combination h
      rcases mul_eq_zero.mp hfac with h3 | h3
      · exact Or.inl (by linarith)
      · exact Or.inr (by linarith)
    have heybl : P2.2 - P1.2 = bl ∨ P2.2 - P1.2 = -bl := by
      have hfac : ((P2.2 - P1.2) - bl) * ((P2.2 - P1.2) + bl) = 0 := by
        linear_combination hey2
      rcases mul_eq_zero.mp hfac with h3 | h3
      · exact Or.inl (by linarith)
      · exact Or.inr (by linarith)
    rcases heybl with hey | hey
    · have hnotgt : ¬ (P1.2 > P2.2) := not_lt.mpr (by linarith)
      rcases hux1 with huxv | huxv
      · have hnotlt : ¬ ((fusedRingCenter (midV P1 P2) cv r bl).1 < P1.1) := by
          refine not_lt.mpr ?_
          rw [hC1, huxv]
          linarith [hppos]
        have hDval : D = -bl := by
          rw [hDset, huy0, huxv, hey]; ring
        have hdD : (-1:ℝ) * D = bl := by rw [hDval]; ring
        exact (hfinish 1 (-1) (Or.inr rfl) (Or.inl ⟨rfl, hdD⟩)
          (hreduce 1 (-1) (by rw [if_pos hx, if_neg hnotgt, if_neg hnotlt])))
      · have hlt : (fusedRingCenter (midV P1 P2) cv r bl).1 < P1.1 := by
          rw [hC1, huxv]
          linarith [hppos]
        have hDval : D = bl := by
          rw [hDset, huy0, huxv, hey]; ring
        have hdD : (1:ℝ) * D = bl := by rw [hDval]; ring
        exact (hfinish 1 1 (Or.inl rfl) (Or.inl ⟨rfl, hdD⟩)
          (hreduce 1 1 (by rw [if_pos hx, if_neg hnotgt, if_pos hlt])))
    · have hgt2 : P1.2 > P2.2 := by linarith
      rcases hux1 with huxv | huxv
      · have hnotlt : ¬ ((fusedRingCenter (midV P1 P2) cv r bl).1 < P1.1) := by
          refine not_lt.mpr ?_
          rw [hC1, huxv]
          linarith [hppos]
        have hDval : D = bl := by
          rw [hDset, huy0, huxv, hey]; ring
        have hdD : (-1:ℝ) * D = -bl := by rw [hDval]; ring
        exact (hfinish 0 (-1) (Or.inr rfl) (Or.inr ⟨rfl, hdD⟩)
          (hreduce 0 (-1) (by rw [if_pos hx, if_pos hgt2, if_neg hnotlt])))
      · have hlt : (fusedRingCenter (midV P1 P2) cv r bl).1 < P1.1 := by
          rw [hC1, huxv]
          linarith [hppos]
        have hDval : D = -bl := by
          rw [hDset, huy0, huxv, hey]; ring
        have hdD : (1:ℝ) * D = -bl := by rw [hDval]; ring
        exact (hfinish 0 1 (Or.inl rfl) (Or.inr ⟨rfl, hdD⟩)
          (hreduce 0 1 (by rw [if_pos hx, if_pos hgt2, if_pos hlt])))
  · have hexne : P2.1 - P1.1 ≠ 0 := fun h => hx (by linarith)
    have hD2 : D^2 = bl^2 := by
      have key : ((P2.1 - P1.1)*uy - (P2.2 - P1.2)*ux)^2 =
          ((P2.1 - P1.1)^2 + (P2.2 - P1.2)^2) * (ux^2 + uy^2) -
          (ux*(P2.1 - P1.1) + uy*(P2.2 - P1.2))^2 := by ring
      rw [hDset, key, hne, hnu, hue]
      ring
    have hDbl : D = bl ∨ D = -bl := by
      have hfac : (D - bl) * (D + bl) = 0 := by linear_combination hD2
      rcases mul_eq_zero.mp hfac with h3 | h3
      · exact Or.inl (by linarith)
      · exact Or.inr (by linarith)
    have hxne' : P1.1 - P2.1 ≠ 0 := hx
    have hcondval : (fusedRingCenter (midV P1 P2) cv r bl).2 - P1.2 -
        ((fusedRingCenter (midV P1 P2) cv r bl).1 - P1.1) * (P1.2 - P2.2) /
          (P1.1 - P2.1) =
        p * D / (P2.1 - P1.1) := by
      rw [hC1, hC2, hDset]
      field_simp
      ring
    by_cases hgt : P1.1 > P2.1
    · have hexneg : P2.1 - P1.1 < 0 := by linarith
      rcases hDbl with hD | hD
      · have hcneg : p * D / (P2.1 - P1.1) < 0 := by
          rw [hD]
          exact div_neg_of_pos_of_neg (mul_pos hppos hbl) hexneg
        have hnotcond : ¬ ((fusedRingCenter (midV P1 P2) cv r bl).2 - P1.2 >
            ((fusedRingCenter (midV P1 P2) cv r bl).1 - P1.1) * (P1.2 - P2.2) /
              (P1.1 - P2.1)) :=
          not_lt.mpr (by linarith [hcondval, hcneg])
        have hdD : (-1:ℝ) * D = -bl := by rw [hD]; ring
        exact (hfinish 0 (-1) (Or.inr rfl) (Or.inr ⟨rfl, hdD⟩)
          (hreduce 0 (-1) (by rw [if_neg hx, if_pos hgt, if_neg hnotcond])))
      · have hcpos : 0 < p * D / (P2.1 - P1.1) := by
          rw [hD]
          exact div_pos_of_neg_of_neg
            (by rw [mul_neg]; exact neg_lt_zero.mpr (mul_pos hppos hbl)) hexneg
        have hcond : (fusedRingCenter (midV P1 P2) cv r bl).2 - P1.2 >
            ((fusedRingCenter (midV P1 P2) cv r bl).1 - P1.1) * (P1.2 - P2.2) /
              (P1.1 - P2.1) := by
          linarith [hcondval, hcpos]
        have hdD : (1:ℝ) * D = -bl := by rw [hD]; ring
        exact (hfinish 0 1 (Or.inl rfl) (Or.inr ⟨rfl, hdD⟩)
          (hreduce 0 1 (by rw [if_neg hx, if_pos hgt, if_pos hcond])))
    · have hexpos : 0 < P2.1 - P1.1 :=
        lt_of_le_of_ne (by linarith [not_lt.mp hgt]) (Ne.symm hexne)
      rcases hDbl with hD | hD
      · have hcpos : 0 < p * D / (P2.1 - P1.1) := by
          rw [hD]
          exact div_pos (mul_pos hppos hbl) hexpos
        have hcond : (fusedRingCenter (midV P1 P2) cv r bl).2 - P1.2 >
            ((fusedRingCenter (midV P1 P2) cv r bl).1 - P1.1) * (P1.2 - P2.2) /
              (P1.1 - P2.1) := by
          linarith [hcondval, hcpos]
        have hdD : (1:ℝ) * D = bl := by rw [hD]; ring
        exact (hfinish 1 1 (Or.inl rfl) (Or.inl ⟨rfl, hdD⟩)
          (hreduce 1 1 (by rw [if_neg hx, if_neg hgt, if_pos hcond])))
      · have hcneg : p * D / (P2.1 - P1.1) < 0 := by
          rw [hD]
          exact div_neg_of_neg_of_pos
            (by rw [mul_neg]; exact neg_lt_zero.mpr (mul_pos hppos hbl)) hexpos
        have hnotcond : ¬ ((fusedRingCenter (midV P1 P2) cv r bl).2 - P1.2 >
            ((fusedRingCenter (midV P1 P2) cv r bl).1 - P1.1) * (P1.2 - P2.2) /
              (P1.1 - P2.1)) :=
          not_lt.mpr (by linarith [hcondval, hcneg])
        have hdD : (-1:ℝ) * D = bl := by rw [hD]; ring
        exact (hfinish 1 (-1) (Or.inr rfl) (Or.inl ⟨rfl, hdD⟩)
          (hreduce 1 (-1) (by rw [if_neg hx, if_neg hgt, if_neg hnotcond])))

/-- Witness for claim C7: a six-ring fused onto the vertical unit bond from
(0,0) to (0,1), with ring-center vector (1,0). -/
theorem claim7_witness :
    ((3:Nat) ≤ 6 ∧ (0:ℝ) < 1 ∧
      lenV (subV ((0:ℝ), (1:ℝ)) ((0:ℝ), (0:ℝ))) = 1 ∧
      dotV ((1:ℝ), (0:ℝ)) (subV ((0:ℝ), (1:ℝ)) ((0:ℝ), (0:ℝ))) = 0 ∧
      ((1:ℝ), (0:ℝ)) ≠ ((0:ℝ), (0:ℝ))) ∧
    (∀ i, 2 ≤ i → i < 6 →
      (placeFusedRing (canonRing 6) ⟨[0, 1], [⟨0, 1⟩]⟩
        (midV ((0:ℝ), (0:ℝ)) ((0:ℝ), (1:ℝ))) ((1:ℝ), (0:ℝ)) 1
        { coord := fun j => if j = 1 then ((0:ℝ), (1:ℝ)) else ((0:ℝ), (0:ℝ)),
          placed := fun _ => false }).placed i = true) := by
  have hdist : lenV (subV ((0:ℝ), (1:ℝ)) ((0:ℝ), (0:ℝ))) = 1 := by
    rw [lenV]
    rw [show normSqV (subV ((0:ℝ), (1:ℝ)) ((0:ℝ), (0:ℝ))) = 1 by
      show ((0:ℝ) - 0)^2 + ((1:ℝ) - 0)^2 = 1
      norm_num]
    exact Real.sqrt_one
  have hperp : dotV ((1:ℝ), (0:ℝ)) (subV ((0:ℝ), (1:ℝ)) ((0:ℝ), (0:ℝ))) = 0 := by
    show (1:ℝ) * ((0:ℝ) - 0) + (0:ℝ) * ((1:ℝ) - 0) = 0
    norm_num
  have hcv : ((1:ℝ), (0:ℝ)) ≠ ((0:ℝ), (0:ℝ)) :=
    fun h => one_ne_zero (show (1:ℝ) = 0 from congrArg Prod.fst h)
  refine ⟨⟨by norm_num, by norm_num, hdist, hperp, hcv⟩, ?_⟩
  intro i h2 h6
  exact ((claim7_fused_ring_placement 6 (by norm_num) 1 (by norm_num)
    ((0:ℝ), (0:ℝ)) ((0:ℝ), (1:ℝ)) ((1:ℝ), (0:ℝ))
    { coord := fun j => if j = 1 then ((0:ℝ), (1:ℝ)) else ((0:ℝ), (0:ℝ)),
      placed := fun _ => false }
    rfl rfl hdist hperp hcv).2.2 i h2 h6).1

end Chempict
